import Mathlib

/-!
Verification of the task-orchestrator server (C sources under `src/`) against its
natural-language specification. Each C function relevant to the checked claims is
shallowly embedded as an executable Lean definition; machine integers are modelled
as `Nat`/`Int` with explicit two's-complement truncation where the C code performs
implementation-defined narrowing conversions. Fallible C functions returning
`NULL`/error codes with `errno` are modelled with `Except Errno`.
-/

set_option maxHeartbeats 1600000

namespace SO

/-- Model of the `errno` values used by the embedded code. -/
inductive Errno where
  | EINVAL
  | ENOMEM
  | EMSGSIZE
  | ETIMEDOUT
  | ERANGE
  | EILSEQ
  | ENOENT
  | EEXIST
  | EDOM
  | EWOULDBLOCK
  | EPIPE
  | EINTR
  | other (n : Nat)
deriving DecidableEq

/-- Model of `struct timespec` (`tv_sec`, `tv_nsec` as mathematical integers). -/
structure Timespec where
  tv_sec : Int
  tv_nsec : Int
deriving DecidableEq

/-- The all-zero `timespec`, which `tagged_task.c` uses to represent an absent timestamp. -/
def Timespec.zero : Timespec := ⟨0, 0⟩

/-- Chronological order on timespecs (lexicographic on seconds then nanoseconds). -/
def Timespec.le (a b : Timespec) : Prop :=
  a.tv_sec < b.tv_sec ∨ (a.tv_sec = b.tv_sec ∧ a.tv_nsec ≤ b.tv_nsec)

instance (a b : Timespec) : Decidable (Timespec.le a b) := by
  unfold Timespec.le
  infer_instance

/-- A timespec is a valid clock reading when its nanosecond field is in range. -/
def Timespec.validNsec (a : Timespec) : Prop :=
  0 ≤ a.tv_nsec ∧ a.tv_nsec < 1000000000

instance (a : Timespec) : Decidable (Timespec.validNsec a) := by
  unfold Timespec.validNsec
  infer_instance

/-- Index of the `SENT` timestamp in `tagged_task::times`. -/
def TAGGED_TASK_TIME_SENT : Nat := 0

/-- Index of the `ARRIVED` timestamp in `tagged_task::times`. -/
def TAGGED_TASK_TIME_ARRIVED : Nat := 1

/-- Index of the `DISPATCHED` timestamp in `tagged_task::times`. -/
def TAGGED_TASK_TIME_DISPATCHED : Nat := 2

/-- Index of the `ENDED` timestamp in `tagged_task::times`. -/
def TAGGED_TASK_TIME_ENDED : Nat := 3

/-- Index of the `COMPLETED` timestamp in `tagged_task::times`. -/
def TAGGED_TASK_TIME_COMPLETED : Nat := 4

/-- Model of `struct tagged_task` (`server/tagged_task.c`). The pipeline is a list of
programs, each a list of argument strings (lists of characters); `times` is the
fixed vector of five timestamps, indexed `0..4`, where the all-zero timespec stands
for an absent stamp. -/
structure TaggedTask where
  task : List (List (List Char))
  command_line : List Char
  id : Nat
  expected_time : Nat
  times : Nat → Timespec

/-- Pointwise update of the timestamp vector at one index. -/
def updTimes (f : Nat → Timespec) (i : Nat) (v : Timespec) : Nat → Timespec :=
  fun j => if j = i then v else f j

/-- Model of `tagged_task_get_time`: fails with `EINVAL` on an out-of-range phase id and
with `EDOM` when the stored stamp is zero seconds and zero nanoseconds. -/
def tagged_task_get_time (task : TaggedTask) (id : Nat) : Except Errno Timespec :=
  if id > TAGGED_TASK_TIME_COMPLETED then .error .EINVAL
  else if task.times id = Timespec.zero then .error .EDOM
  else .ok (task.times id)

/-- Model of `tagged_task_set_time`. `time = some ts` models a non-NULL pointer argument;
`time = none` models the NULL pointer, in which case `clock` is the outcome of
`clock_gettime` (`none` models a failed clock read, after which the code stores the
all-zero timespec). -/
def tagged_task_set_time (task : TaggedTask) (id : Nat) (time : Option Timespec)
    (clock : Option Timespec) : Except Errno TaggedTask :=
  if id > TAGGED_TASK_TIME_COMPLETED then .error .EINVAL
  else match time with
    | some ts => .ok { task with times := updTimes task.times id ts }
    | none =>
      match clock with
      | some now => .ok { task with times := updTimes task.times id now }
      | none => .ok { task with times := updTimes task.times id Timespec.zero }

/-- Helper mirroring call sites that ignore the return value of `tagged_task_set_time`:
on failure the task is left unchanged (the C code did not mutate it). -/
def setTimeIgnore (task : TaggedTask) (id : Nat) (time : Option Timespec)
    (clock : Option Timespec) : TaggedTask :=
  match tagged_task_set_time task id time clock with
  | .ok t => t
  | .error _ => task

/-- Two's-complement truncation of an integer to 32 bits (2147483648 = 2^31 and
4294967296 = 2^32), modelling C's implementation-defined conversion of a wider
value to `int`. -/
def toInt32 (x : Int) : Int := (x + 2147483648) % 4294967296 - 2147483648

/-- Model of `__scheduler_compare_sjf` (`server/scheduler.c`): the `int64_t` difference of
the two 32-bit expected times, truncated to `int` by the return. -/
def scheduler_compare_sjf (a b : TaggedTask) : Int :=
  toInt32 ((a.expected_time : Int) - (b.expected_time : Int))

/-- Model of `__scheduler_compare_fcfs` (`server/scheduler.c`): compares the `ARRIVED`
timestamps; if either is absent returns 0; otherwise orders by seconds, and on equal
seconds returns the nanosecond difference truncated to `int`. -/
def scheduler_compare_fcfs (a b : TaggedTask) : Int :=
  match tagged_task_get_time a TAGGED_TASK_TIME_ARRIVED,
        tagged_task_get_time b TAGGED_TASK_TIME_ARRIVED with
  | .ok a_time, .ok b_time =>
    if a_time.tv_sec > b_time.tv_sec then 1
    else if a_time.tv_sec = b_time.tv_sec then toInt32 (a_time.tv_nsec - b_time.tv_nsec)
    else -1
  | _, _ => 0

/-- A sample tagged task used by concrete witnesses and counterexamples. -/
def sampleTask (exp : Nat) : TaggedTask :=
  { task := [[[ 'x']]]
    command_line := [ 'x']
    id := 0
    expected_time := exp
    times := fun _ => Timespec.zero }

/-- C10: for every tagged task and valid phase, `tagged_task_get_time` returns the stored
timestamp exactly when it is not zero seconds and zero nanoseconds, and fails with kind
domain otherwise; consequently a stamp explicitly set to the zero instant (including the
fallback taken when the clock read inside `tagged_task_set_time` fails) is afterwards
indistinguishable from one never set. -/
theorem get_time_zero_is_domain (t : TaggedTask) (i : Nat)
    (h : i ≤ TAGGED_TASK_TIME_COMPLETED) :
    (tagged_task_get_time t i = .ok (t.times i) ↔ t.times i ≠ Timespec.zero) ∧
    (tagged_task_get_time t i = .error .EDOM ↔ t.times i = Timespec.zero) ∧
    (∀ t2, tagged_task_set_time t i (some Timespec.zero) none = .ok t2 →
      tagged_task_get_time t2 i = .error .EDOM) ∧
    (∀ t2, tagged_task_set_time t i none none = .ok t2 →
      tagged_task_get_time t2 i = .error .EDOM) := by
  have hle : ¬ i > TAGGED_TASK_TIME_COMPLETED := by omega
  refine ⟨?_, ?_, ?_, ?_⟩
  · constructor
    · intro hok
      intro hz
      simp [tagged_task_get_time, hle, hz] at hok
    · intro hz
      simp [tagged_task_get_time, hle, hz]
  · constructor
    · intro herr
      by_contra hz
      simp [tagged_task_get_time, hle, hz] at herr
    · intro hz
      simp [tagged_task_get_time, hle, hz]
  · intro t2 hset
    simp [tagged_task_set_time, hle] at hset
    subst hset
    simp [tagged_task_get_time, hle, updTimes]
  · intro t2 hset
    simp [tagged_task_set_time, hle] at hset
    subst hset
    simp [tagged_task_get_time, hle, updTimes]

/-- Witness for `get_time_zero_is_domain` at a concrete task and phase. -/
theorem get_time_zero_is_domain_witness :
    TAGGED_TASK_TIME_DISPATCHED ≤ TAGGED_TASK_TIME_COMPLETED ∧
    (tagged_task_get_time (sampleTask 7) TAGGED_TASK_TIME_DISPATCHED =
        .ok ((sampleTask 7).times TAGGED_TASK_TIME_DISPATCHED) ↔
      (sampleTask 7).times TAGGED_TASK_TIME_DISPATCHED ≠ Timespec.zero) :=
  ⟨by decide,
   (get_time_zero_is_domain (sampleTask 7) TAGGED_TASK_TIME_DISPATCHED (by decide)).1⟩

/-- C3 counterexample: the SJF comparator does not order all 32-bit expected times
ascending. With expected times 0 and 4294967295 the signed 64-bit difference is
truncated to the 32-bit value 1, so the comparator claims the task expected to take
0 ms is the greater one. -/
theorem compare_sjf_not_ascending :
    (sampleTask 0).expected_time < (sampleTask 4294967295).expected_time ∧
    scheduler_compare_sjf (sampleTask 0) (sampleTask 4294967295) = 1 := by
  constructor
  · decide
  · decide

/-- C3 (amended): the SJF comparator orders two tasks by their expected times ascending
whenever the signed difference of the two expected times fits in 32 bits, i.e. its
magnitude is below 2^31. -/
theorem compare_sjf_ascending_when_no_overflow (a b : TaggedTask)
    (hdiff : ((a.expected_time : Int) - (b.expected_time : Int)).natAbs < 2147483648) :
    (scheduler_compare_sjf a b < 0 ↔ a.expected_time < b.expected_time) ∧
    (scheduler_compare_sjf a b = 0 ↔ a.expected_time = b.expected_time) ∧
    (0 < scheduler_compare_sjf a b ↔ b.expected_time < a.expected_time) := by
  have hid : toInt32 ((a.expected_time : Int) - (b.expected_time : Int)) =
      (a.expected_time : Int) - (b.expected_time : Int) := by
    unfold toInt32
    set d : Int := (a.expected_time : Int) - (b.expected_time : Int) with hd
    have h1 : -2147483648 < d := by omega
    have h2 : d < 2147483648 := by omega
    have h3 : (d + 2147483648) % 4294967296 = d + 2147483648 := by
      apply Int.emod_eq_of_lt <;> omega
    omega
  unfold scheduler_compare_sjf
  rw [hid]
  refine ⟨?_, ?_, ?_⟩ <;> omega

/-- Witness for `compare_sjf_ascending_when_no_overflow` at concrete expected times. -/
theorem compare_sjf_ascending_when_no_overflow_witness :
    (((sampleTask 100).expected_time : Int) -
        ((sampleTask 300).expected_time : Int)).natAbs < 2147483648 ∧
    (scheduler_compare_sjf (sampleTask 100) (sampleTask 300) < 0 ↔
      (sampleTask 100).expected_time < (sampleTask 300).expected_time) :=
  ⟨by decide,
   (compare_sjf_ascending_when_no_overflow (sampleTask 100) (sampleTask 300) (by decide)).1⟩

/-- Inner per-buffer loop of `log_file_read_tasks` (`server/log_file.c`): invokes the
callback on each record of the chunk in order, incrementing the count of outputted
tasks, and breaks out of the chunk when the count reaches `task_count`. Returns the
records passed to the callback (modelling a callback that always returns 0) and the
updated count. -/
def log_file_read_chunk {α : Type} (task_count : Nat) :
    Nat → List α → List α × Nat
  | outputted, [] => ([], outputted)
  | outputted, r :: rs =>
    let outputted2 := outputted + 1
    if outputted2 = task_count then ([r], outputted2)
    else
      let p := log_file_read_chunk task_count outputted2 rs
      (r :: p.1, p.2)

/-- Outer read loop of `log_file_read_tasks`: each `read` returns up to four records
(`LOG_FILE_READ_BUFFER_SIZE` is four serialized records), a short chunk being followed
by an end-of-file read that terminates the loop. -/
def log_file_read_loop {α : Type} (task_count : Nat) (outputted : Nat) :
    List α → List α
  | [] => []
  | [a] => (log_file_read_chunk task_count outputted [a]).1
  | [a, b] => (log_file_read_chunk task_count outputted [a, b]).1
  | [a, b, c] => (log_file_read_chunk task_count outputted [a, b, c]).1
  | a :: b :: c :: d :: rest =>
    let p := log_file_read_chunk task_count outputted [a, b, c, d]
    p.1 ++ log_file_read_loop task_count p.2 rest

/-- Model of `log_file_read_tasks` restricted to the records delivered to the callback:
`task_count` is the handle's in-memory record count and `records` the sequence of
records on disk. Seeking, deserialization failures and nonzero callback returns are
orthogonal to the claim under check. -/
def log_file_read_tasks {α : Type} (task_count : Nat) (records : List α) : List α :=
  log_file_read_loop task_count 0 records

/-- C1 (code bug): the replay loop does not stop after `task_count` records. The check
`outputted_tasks == log_file->task_count` only breaks out of the inner per-buffer loop,
so the outer loop keeps reading: a handle with `task_count = 0` (a freshly opened
read-only handle) replays every record on disk, and a handle whose snapshot is 4
replays a fifth record written after the snapshot. -/
theorem log_file_read_tasks_exceeds_task_count :
    log_file_read_tasks 0 [(0 : Nat)] = [0] ∧
    log_file_read_tasks 4 [(0 : Nat), 1, 2, 3, 4] = [0, 1, 2, 3, 4] := by
  constructor
  · rfl
  · rfl

/-- Size in bytes of the largest message payload (`PIPE_BUF` minus the eight header
bytes, with `PIPE_BUF = 4096` on the target platform). -/
def IPC_MAXIMUM_MESSAGE_LENGTH : Nat := 4096 - 2 * 4

/-- Outcome of one `write` call, as observed by `ipc_send_retry`: either the full frame
was written, or the call failed with the given `errno`. -/
inductive WriteOutcome where
  | ok
  | err (e : Errno)
deriving DecidableEq

/-- Result of `ipc_send_retry`, together with the number of `write` attempts performed
and the number of times the peer FIFO was reopened. -/
structure SendRetryResult where
  result : Except Errno Unit
  write_attempts : Nat
  reopens : Nat

/-- Retry loop of `ipc_send_retry` (`ipc.c`): `writes i` is the outcome of the i-th
`write` attempt and `reopenFail k` the errno of the k-th reopen of the peer FIFO
(`none` = reopen succeeded). Mirrors the `for` loop: on a write that failed with
`EPIPE`/`EINTR` the FIFO is reopened and the write reissued; any other errno aborts
immediately; after `max_tries` attempts the call fails with `ETIMEDOUT`. -/
def ipc_send_retry_go (writes : Nat → WriteOutcome) (reopenFail : Nat → Option Errno) :
    Nat → Nat → Nat → SendRetryResult
  | attempts, reopens, 0 => ⟨.error .ETIMEDOUT, attempts, reopens⟩
  | attempts, reopens, left + 1 =>
    match writes attempts with
    | .ok => ⟨.ok (), attempts + 1, reopens⟩
    | .err e =>
      if e = .EPIPE ∨ e = .EINTR then
        match reopenFail reopens with
        | some e2 => ⟨.error e2, attempts + 1, reopens⟩
        | none => ipc_send_retry_go writes reopenFail (attempts + 1) (reopens + 1) left
      else ⟨.error e, attempts + 1, reopens⟩

/-- Model of `ipc_send_retry`. `conn_ok` models the non-NULL checks on the connection,
message pointer and open send descriptor. -/
def ipc_send_retry (conn_ok : Bool) (length : Nat) (max_tries : Nat)
    (writes : Nat → WriteOutcome) (reopenFail : Nat → Option Errno) : SendRetryResult :=
  if ¬conn_ok ∨ max_tries = 0 then ⟨.error .EINVAL, 0, 0⟩
  else if length > IPC_MAXIMUM_MESSAGE_LENGTH ∨ length = 0 then ⟨.error .EMSGSIZE, 0, 0⟩
  else ipc_send_retry_go writes reopenFail 0 0 max_tries

/-- Unfolding equation: a successful write returns immediately. -/
theorem ipc_send_retry_go_step_ok (writes : Nat → WriteOutcome)
    (reopenFail : Nat → Option Errno) (attempts reopens left : Nat)
    (hw : writes attempts = .ok) :
    ipc_send_retry_go writes reopenFail attempts reopens (left + 1) =
      ⟨.ok (), attempts + 1, reopens⟩ := by
  unfold ipc_send_retry_go
  rw [hw]

/-- Unfolding equation: a write failing with `EPIPE`/`EINTR` followed by a successful
reopen retries the loop. -/
theorem ipc_send_retry_go_step_retry (writes : Nat → WriteOutcome)
    (reopenFail : Nat → Option Errno) (attempts reopens left : Nat) (e : Errno)
    (hw : writes attempts = .err e) (he : e = .EPIPE ∨ e = .EINTR)
    (hro : reopenFail reopens = none) :
    ipc_send_retry_go writes reopenFail attempts reopens (left + 1) =
      ipc_send_retry_go writes reopenFail (attempts + 1) (reopens + 1) left := by
  conv_lhs => unfold ipc_send_retry_go
  rw [hw]
  simp only [he, if_true, hro, if_pos]

/-- Unfolding equation: a write failing with `EPIPE`/`EINTR` followed by a failed reopen
aborts with the reopen errno. -/
theorem ipc_send_retry_go_step_reopen_fail (writes : Nat → WriteOutcome)
    (reopenFail : Nat → Option Errno) (attempts reopens left : Nat) (e e2 : Errno)
    (hw : writes attempts = .err e) (he : e = .EPIPE ∨ e = .EINTR)
    (hro : reopenFail reopens = some e2) :
    ipc_send_retry_go writes reopenFail attempts reopens (left + 1) =
      ⟨.error e2, attempts + 1, reopens⟩ := by
  unfold ipc_send_retry_go
  rw [hw]
  simp only [he, if_true, hro, if_pos]

/-- Unfolding equation: a write failing with any other errno aborts immediately. -/
theorem ipc_send_retry_go_step_abort (writes : Nat → WriteOutcome)
    (reopenFail : Nat → Option Errno) (attempts reopens left : Nat) (e : Errno)
    (hw : writes attempts = .err e) (he : ¬(e = .EPIPE ∨ e = .EINTR)) :
    ipc_send_retry_go writes reopenFail attempts reopens (left + 1) =
      ⟨.error e, attempts + 1, reopens⟩ := by
  unfold ipc_send_retry_go
  rw [hw]
  simp only [he, if_false]

/-- Projection of a literal retry result (write attempts). -/
theorem sendRetryResult_mk_attempts (r : Except Errno Unit) (a b : Nat) :
    (SendRetryResult.mk r a b).write_attempts = a := rfl

/-- Projection of a literal retry result (reopen count). -/
theorem sendRetryResult_mk_reopens (r : Except Errno Unit) (a b : Nat) :
    (SendRetryResult.mk r a b).reopens = b := rfl

/-- Projection of a literal retry result (result value). -/
theorem sendRetryResult_mk_result (r : Except Errno Unit) (a b : Nat) :
    (SendRetryResult.mk r a b).result = r := rfl

/-- The retry loop performs at least one write attempt per call. -/
theorem ipc_send_retry_go_attempts_lower (writes : Nat → WriteOutcome)
    (reopenFail : Nat → Option Errno) :
    ∀ left attempts reopens,
      attempts ≤ (ipc_send_retry_go writes reopenFail attempts reopens left).write_attempts := by
  intro left
  induction left with
  | zero =>
    intro attempts reopens
    simp [ipc_send_retry_go]
  | succ n ih =>
    intro attempts reopens
    cases hw : writes attempts with
    | ok =>
      rw [ipc_send_retry_go_step_ok writes reopenFail attempts reopens n hw,
        sendRetryResult_mk_attempts]
      omega
    | err e =>
      by_cases he : e = .EPIPE ∨ e = .EINTR
      · cases hro : reopenFail reopens with
        | some e2 =>
          rw [ipc_send_retry_go_step_reopen_fail writes reopenFail attempts reopens n
            e e2 hw he hro, sendRetryResult_mk_attempts]
          omega
        | none =>
          rw [ipc_send_retry_go_step_retry writes reopenFail attempts reopens n e hw he hro]
          have := ih (attempts + 1) (reopens + 1)
          omega
      · rw [ipc_send_retry_go_step_abort writes reopenFail attempts reopens n e hw he,
          sendRetryResult_mk_attempts]
        omega

/-- The retry loop performs at most `left` further write attempts. -/
theorem ipc_send_retry_go_attempts_upper (writes : Nat → WriteOutcome)
    (reopenFail : Nat → Option Errno) :
    ∀ left attempts reopens,
      (ipc_send_retry_go writes reopenFail attempts reopens left).write_attempts ≤
        attempts + left := by
  intro left
  induction left with
  | zero =>
    intro attempts reopens
    simp [ipc_send_retry_go]
  | succ n ih =>
    intro attempts reopens
    cases hw : writes attempts with
    | ok =>
      rw [ipc_send_retry_go_step_ok writes reopenFail attempts reopens n hw,
        sendRetryResult_mk_attempts]
      omega
    | err e =>
      by_cases he : e = .EPIPE ∨ e = .EINTR
      · cases hro : reopenFail reopens with
        | some e2 =>
          rw [ipc_send_retry_go_step_reopen_fail writes reopenFail attempts reopens n
            e e2 hw he hro, sendRetryResult_mk_attempts]
          omega
        | none =>
          rw [ipc_send_retry_go_step_retry writes reopenFail attempts reopens n e hw he hro]
          have := ih (attempts + 1) (reopens + 1)
          omega
      · rw [ipc_send_retry_go_step_abort writes reopenFail attempts reopens n e hw he,
          sendRetryResult_mk_attempts]
        omega

/-- Any reopen performed by the retry loop follows a write attempt that failed with
`EPIPE` or `EINTR`. -/
theorem ipc_send_retry_go_reopen_cause (writes : Nat → WriteOutcome)
    (reopenFail : Nat → Option Errno) :
    ∀ left attempts reopens,
      (ipc_send_retry_go writes reopenFail attempts reopens left).reopens > reopens →
      ∃ i, attempts ≤ i ∧
        i < (ipc_send_retry_go writes reopenFail attempts reopens left).write_attempts ∧
        (writes i = .err .EPIPE ∨ writes i = .err .EINTR) := by
  intro left
  induction left with
  | zero =>
    intro attempts reopens h
    simp [ipc_send_retry_go] at h
  | succ n ih =>
    intro attempts reopens
    cases hw : writes attempts with
    | ok =>
      rw [ipc_send_retry_go_step_ok writes reopenFail attempts reopens n hw]
      intro h
      simp at h
    | err e =>
      by_cases he : e = .EPIPE ∨ e = .EINTR
      · cases hro : reopenFail reopens with
        | some e2 =>
          rw [ipc_send_retry_go_step_reopen_fail writes reopenFail attempts reopens n
            e e2 hw he hro]
          intro h
          simp at h
        | none =>
          rw [ipc_send_retry_go_step_retry writes reopenFail attempts reopens n e hw he hro]
          intro h
          by_cases hgt :
              (ipc_send_retry_go writes reopenFail (attempts + 1) (reopens + 1) n).reopens >
                reopens + 1
          · obtain ⟨i, hi1, hi2, hi3⟩ := ih (attempts + 1) (reopens + 1) hgt
            exact ⟨i, by omega, hi2, hi3⟩
          · refine ⟨attempts, le_refl _, ?_, ?_⟩
            · have := ipc_send_retry_go_attempts_lower writes reopenFail n
                (attempts + 1) (reopens + 1)
              omega
            · rcases he with h1 | h1
              · exact Or.inl (by rw [hw, h1])
              · exact Or.inr (by rw [hw, h1])
      · rw [ipc_send_retry_go_step_abort writes reopenFail attempts reopens n e hw he]
        intro h
        simp at h

/-- Errno preservation: if the writes before position `j` all fail with `EPIPE`/`EINTR`
(with successful reopens) and the write at `j` fails with a different errno, the loop
aborts at attempt `j + 1` with that errno preserved. -/
theorem ipc_send_retry_go_abort (writes : Nat → WriteOutcome)
    (reopenFail : Nat → Option Errno) (e : Errno)
    (he : ¬(e = .EPIPE ∨ e = .EINTR)) :
    ∀ left attempts reopens j, j < attempts + left → attempts ≤ j →
      (∀ i, attempts ≤ i → i < j → writes i = .err .EPIPE ∨ writes i = .err .EINTR) →
      (∀ k, reopenFail k = none) →
      writes j = .err e →
      (ipc_send_retry_go writes reopenFail attempts reopens left).result = .error e ∧
      (ipc_send_retry_go writes reopenFail attempts reopens left).write_attempts =
        j + 1 := by
  intro left
  induction left with
  | zero =>
    intro attempts reopens j h1
    omega
  | succ n ih =>
    intro attempts reopens j hlt hle hprev hro hj
    by_cases hja : j = attempts
    · subst hja
      rw [ipc_send_retry_go_step_abort writes reopenFail j reopens n e hj he]
      exact ⟨rfl, rfl⟩
    · have hja2 : attempts < j := by omega
      have hcur := hprev attempts (le_refl _) hja2
      rcases hcur with h1 | h1
      · rw [ipc_send_retry_go_step_retry writes reopenFail attempts reopens n .EPIPE h1
          (Or.inl rfl) (hro reopens)]
        exact ih (attempts + 1) (reopens + 1) j (by omega) (by omega)
          (fun i hi1 hi2 => hprev i (by omega) hi2) hro hj
      · rw [ipc_send_retry_go_step_retry writes reopenFail attempts reopens n .EINTR h1
          (Or.inr rfl) (hro reopens)]
        exact ih (attempts + 1) (reopens + 1) j (by omega) (by omega)
          (fun i hi1 hi2 => hprev i (by omega) hi2) hro hj

/-- Exhaustion: if every write fails with `EPIPE` or `EINTR` and every reopen succeeds,
the loop uses all its remaining attempts and fails with `ETIMEDOUT`. -/
theorem ipc_send_retry_go_exhaust (writes : Nat → WriteOutcome)
    (reopenFail : Nat → Option Errno)
    (hw : ∀ i, writes i = .err .EPIPE ∨ writes i = .err .EINTR)
    (hro : ∀ k, reopenFail k = none) :
    ∀ left attempts reopens,
      ipc_send_retry_go writes reopenFail attempts reopens left =
        ⟨.error .ETIMEDOUT, attempts + left, reopens + left⟩ := by
  intro left
  induction left with
  | zero =>
    intro attempts reopens
    simp [ipc_send_retry_go]
  | succ n ih =>
    intro attempts reopens
    have hstep : ipc_send_retry_go writes reopenFail attempts reopens (n + 1) =
        ipc_send_retry_go writes reopenFail (attempts + 1) (reopens + 1) n := by
      rcases hw attempts with h1 | h1
      · exact ipc_send_retry_go_step_retry writes reopenFail attempts reopens n .EPIPE h1
          (Or.inl rfl) (hro reopens)
      · exact ipc_send_retry_go_step_retry writes reopenFail attempts reopens n .EINTR h1
          (Or.inr rfl) (hro reopens)
    rw [hstep, ih (attempts + 1) (reopens + 1)]
    have e1 : attempts + 1 + n = attempts + (n + 1) := by omega
    have e2 : reopens + 1 + n = reopens + (n + 1) := by omega
    rw [e1, e2]

/-- C6: for an open connection, a message of valid length and `max_tries ≥ 1`, the
retrying send performs at most `max_tries` write attempts; the peer FIFO is reopened
only after a write failed with `EPIPE` or `EINTR`; if all `max_tries` attempts fail
with `EPIPE`/`EINTR` (reopens succeeding) the call fails with kind timed-out; and a
write failure with any other errno aborts immediately with that errno preserved. -/
theorem ipc_send_retry_spec (length max_tries : Nat)
    (writes : Nat → WriteOutcome) (reopenFail : Nat → Option Errno)
    (hlen1 : 0 < length) (hlen2 : length ≤ IPC_MAXIMUM_MESSAGE_LENGTH)
    (htries : 1 ≤ max_tries) :
    ((ipc_send_retry true length max_tries writes reopenFail).write_attempts ≤
      max_tries) ∧
    ((ipc_send_retry true length max_tries writes reopenFail).reopens > 0 →
      ∃ i, i < (ipc_send_retry true length max_tries writes reopenFail).write_attempts ∧
        (writes i = .err .EPIPE ∨ writes i = .err .EINTR)) ∧
    ((∀ i, writes i = .err .EPIPE ∨ writes i = .err .EINTR) →
      (∀ k, reopenFail k = none) →
      (ipc_send_retry true length max_tries writes reopenFail).result =
        .error .ETIMEDOUT ∧
      (ipc_send_retry true length max_tries writes reopenFail).write_attempts =
        max_tries) ∧
    (∀ j e, j < max_tries → ¬(e = .EPIPE ∨ e = .EINTR) →
      (∀ i, i < j → writes i = .err .EPIPE ∨ writes i = .err .EINTR) →
      (∀ k, reopenFail k = none) →
      writes j = .err e →
      (ipc_send_retry true length max_tries writes reopenFail).result = .error e ∧
      (ipc_send_retry true length max_tries writes reopenFail).write_attempts =
        j + 1) := by
  have hcond : ipc_send_retry true length max_tries writes reopenFail =
      ipc_send_retry_go writes reopenFail 0 0 max_tries := by
    unfold ipc_send_retry
    have h1 : ¬(¬true ∨ max_tries = 0) := by
      intro hcontra
      rcases hcontra with hc | hc
      · exact hc rfl
      · omega
    have h2 : ¬(length > IPC_MAXIMUM_MESSAGE_LENGTH ∨ length = 0) := by
      simp only [not_or]
      constructor
      · omega
      · omega
    rw [if_neg h1, if_neg h2]
  rw [hcond]
  refine ⟨?_, ?_, ?_, ?_⟩
  · have := ipc_send_retry_go_attempts_upper writes reopenFail max_tries 0 0
    omega
  · intro h
    obtain ⟨i, _, hi2, hi3⟩ :=
      ipc_send_retry_go_reopen_cause writes reopenFail max_tries 0 0 h
    exact ⟨i, hi2, hi3⟩
  · intro hw hro
    rw [ipc_send_retry_go_exhaust writes reopenFail hw hro max_tries 0 0]
    refine ⟨rfl, ?_⟩
    rw [sendRetryResult_mk_attempts]
    omega
  · intro j e hj he hprev hro hje
    exact ipc_send_retry_go_abort writes reopenFail e he max_tries 0 0 j (by omega)
      (by omega) (fun i _ hi => hprev i hi) hro hje

/-- Witness for `ipc_send_retry_spec`: three write attempts that all break the pipe lead
to a timed-out failure after exactly three attempts. -/
theorem ipc_send_retry_spec_witness :
    (0 : Nat) < 8 ∧ (8 : Nat) ≤ IPC_MAXIMUM_MESSAGE_LENGTH ∧ (1 : Nat) ≤ 3 ∧
    ((ipc_send_retry true 8 3 (fun _ => .err .EPIPE) (fun _ => none)).result =
        .error .ETIMEDOUT ∧
      (ipc_send_retry true 8 3 (fun _ => .err .EPIPE) (fun _ => none)).write_attempts =
        3) :=
  ⟨by decide, by decide, by decide,
   (ipc_send_retry_spec 8 3 (fun _ => .err .EPIPE) (fun _ => none) (by decide)
      (by decide) (by decide)).2.2.1 (fun _ => Or.inl rfl) (fun _ => rfl)⟩

/-- Model of a scheduler slot (`scheduler_slot_t` in `server/scheduler.c`): either free,
or occupied by a child pid, the shared secret, and the running task. -/
inductive SchedulerSlot where
  | available
  | occupied (pid : Int) (secret : Nat) (task : TaggedTask)

/-- Model of `struct priority_queue` (`server/priority_queue.c`): the heap array as a
total function over indices, of which the first `size` are meaningful. The comparator,
stored in the C struct at construction, is passed to each operation explicitly. -/
structure PriorityQueue where
  size : Nat
  values : Nat → TaggedTask

/-- Model of `struct scheduler` (`server/scheduler.c`). -/
structure Scheduler where
  queue : PriorityQueue
  ntasks : Nat
  slots : Nat → SchedulerSlot

/-- Marks one slot of a scheduler as available again. -/
def schedulerFreeSlot (s : Scheduler) (slot : Nat) : Scheduler :=
  { s with slots := fun j => if j = slot then .available else s.slots j }

/-- Model of `scheduler_mark_done` (`server/scheduler.c`). `scheduler = none` and
`time_ended = none` model NULL pointer arguments; `wait_result` is the outcome of the
blocking `waitpid` (`some e` = failure with errno `e`); `clock` is the `clock_gettime`
outcome used for the `COMPLETED` stamp. Returns the C return value together with the
scheduler state after the call. -/
def scheduler_mark_done (scheduler : Option Scheduler) (slot : Nat) (secret : Nat)
    (time_ended : Option Timespec) (wait_result : Option Errno)
    (clock : Option Timespec) : Except Errno TaggedTask × Option Scheduler :=
  match scheduler, time_ended with
  | none, _ => (.error .EINVAL, scheduler)
  | some s, none => (.error .EINVAL, some s)
  | some s, some te =>
    if slot ≥ s.ntasks then (.error .ERANGE, some s)
    else match s.slots slot with
      | .available => (.error .ERANGE, some s)
      | .occupied _ sec task =>
        if sec ≠ secret then (.error .EWOULDBLOCK, some s)
        else match wait_result with
          | some e => (.error e, some (schedulerFreeSlot s slot))
          | none =>
            let t1 := setTimeIgnore task TAGGED_TASK_TIME_ENDED (some te) none
            let t2 := setTimeIgnore t1 TAGGED_TASK_TIME_COMPLETED none clock
            (.ok t2, some (schedulerFreeSlot s slot))

/-- A concrete one-slot scheduler whose slot 0 is occupied with secret 5. -/
def sampleScheduler : Scheduler :=
  { queue := ⟨0, fun _ => sampleTask 0⟩
    ntasks := 1
    slots := fun _ => .occupied 99 5 (sampleTask 0) }

/-- C7 counterexample: `scheduler_mark_done` (as implemented, with its secret argument)
has a failure kind beyond invalid-argument, range and wait failure: with a non-null
scheduler, a non-null timestamp, a valid occupied slot and a successful wait, a
mismatched secret makes it fail with kind would-block (`EWOULDBLOCK`). -/
theorem scheduler_mark_done_wouldblock :
    (scheduler_mark_done (some sampleScheduler) 0 7 (some ⟨1, 0⟩) none
        (some ⟨2, 0⟩)).1 = .error .EWOULDBLOCK ∧
    (Errno.EWOULDBLOCK ≠ .EINVAL ∧ Errno.EWOULDBLOCK ≠ .ERANGE) ∧
    ¬(0 ≥ sampleScheduler.ntasks) ∧
    sampleScheduler.slots 0 = .occupied 99 5 (sampleTask 0) := by
  exact ⟨rfl, ⟨by decide, by decide⟩, by decide, rfl⟩

/-- C7 (amended): full case characterization of `scheduler_mark_done`. It fails with
kind invalid-argument on a null scheduler or null end timestamp; with kind range when
`slot ≥ N` or the slot is free; additionally (beyond the claim) with kind would-block
when the provided secret does not match the slot's; on wait failure the slot is freed
and the wait errno returned; and on success (matching secret, successful wait) the
task's `ENDED` stamp is the given time, its `COMPLETED` stamp the current clock
reading, the slot is freed and the task returned with all other fields unchanged. -/
theorem scheduler_mark_done_cases (s : Scheduler) (slot secret : Nat) (te : Timespec)
    (wait_result : Option Errno) (clock : Option Timespec) :
    (scheduler_mark_done none slot secret (some te) wait_result clock =
      (.error .EINVAL, none)) ∧
    (scheduler_mark_done (some s) slot secret none wait_result clock =
      (.error .EINVAL, some s)) ∧
    ((slot ≥ s.ntasks ∨ s.slots slot = .available) →
      scheduler_mark_done (some s) slot secret (some te) wait_result clock =
        (.error .ERANGE, some s)) ∧
    (∀ pid sec task, slot < s.ntasks → s.slots slot = .occupied pid sec task →
      (sec ≠ secret →
        scheduler_mark_done (some s) slot secret (some te) wait_result clock =
          (.error .EWOULDBLOCK, some s)) ∧
      (∀ e, sec = secret → wait_result = some e →
        scheduler_mark_done (some s) slot secret (some te) wait_result clock =
          (.error e, some (schedulerFreeSlot s slot))) ∧
      (sec = secret → wait_result = none →
        ∃ t2, scheduler_mark_done (some s) slot secret (some te) wait_result clock =
            (.ok t2, some (schedulerFreeSlot s slot)) ∧
          t2.times TAGGED_TASK_TIME_ENDED = te ∧
          t2.times TAGGED_TASK_TIME_COMPLETED =
            (match clock with | some now => now | none => Timespec.zero) ∧
          t2.id = task.id ∧ t2.expected_time = task.expected_time ∧
          t2.command_line = task.command_line ∧ t2.task = task.task ∧
          (∀ i, i ≠ TAGGED_TASK_TIME_ENDED → i ≠ TAGGED_TASK_TIME_COMPLETED →
            t2.times i = task.times i))) := by
  refine ⟨rfl, rfl, ?_, ?_⟩
  · intro h
    simp only [scheduler_mark_done]
    rcases h with h | h
    · rw [if_pos h]
    · rcases Nat.lt_or_ge slot s.ntasks with h2 | h2
      · rw [if_neg (by omega), h]
      · rw [if_pos h2]
  · intro pid sec task hlt hocc
    have hnot : ¬ slot ≥ s.ntasks := by omega
    refine ⟨?_, ?_, ?_⟩
    · intro hne
      simp only [scheduler_mark_done]
      rw [if_neg hnot, hocc]
      simp [hne]
    · intro e hsec hwr
      simp only [scheduler_mark_done]
      rw [if_neg hnot, hocc, hwr]
      subst hsec
      simp
    · intro hsec hwr
      subst hsec
      refine ⟨setTimeIgnore (setTimeIgnore task TAGGED_TASK_TIME_ENDED (some te) none)
        TAGGED_TASK_TIME_COMPLETED none clock, ?_, ?_, ?_, ?_, ?_, ?_, ?_, ?_⟩
      · simp only [scheduler_mark_done]
        rw [if_neg hnot, hocc, hwr]
        simp
      · cases clock <;>
          simp [setTimeIgnore, tagged_task_set_time, TAGGED_TASK_TIME_ENDED,
            TAGGED_TASK_TIME_COMPLETED, TAGGED_TASK_TIME_SENT, updTimes]
      · cases clock <;>
          simp [setTimeIgnore, tagged_task_set_time, TAGGED_TASK_TIME_ENDED,
            TAGGED_TASK_TIME_COMPLETED, updTimes]
      · cases clock <;> rfl
      · cases clock <;> rfl
      · cases clock <;> rfl
      · cases clock <;> rfl
      · intro i h1 h2
        have h3 : i ≠ 3 := by simpa [TAGGED_TASK_TIME_ENDED] using h1
        have h4 : i ≠ 4 := by simpa [TAGGED_TASK_TIME_COMPLETED] using h2
        cases clock <;>
          simp [setTimeIgnore, tagged_task_set_time, TAGGED_TASK_TIME_ENDED,
            TAGGED_TASK_TIME_COMPLETED, updTimes, h3, h4]

/-- Witness for `scheduler_mark_done_cases`: the range case at a concrete out-of-bounds
slot of the sample scheduler. -/
theorem scheduler_mark_done_cases_witness :
    ((3 ≥ sampleScheduler.ntasks ∨ sampleScheduler.slots 3 = .available) ∧
      scheduler_mark_done (some sampleScheduler) 3 5 (some ⟨1, 0⟩) none (some ⟨2, 0⟩) =
        (.error .ERANGE, some sampleScheduler)) :=
  ⟨Or.inl (by decide),
   (scheduler_mark_done_cases sampleScheduler 3 5 ⟨1, 0⟩ none (some ⟨2, 0⟩)).2.2.1
     (Or.inl (by decide))⟩

/-- A token produced by the command-line tokenizer (`command_parser_token_t`). -/
structure CToken where
  string : List Char
  is_pipe : Bool
deriving DecidableEq

/-- Recursion underlying `__command_parser_token_next` (`server/command_parser.c`),
written over the remaining characters with the C locals as accumulators
(`indq` = `in_double_quotes`, `insq` = `in_single_quotes`, `hbq` = `have_been_quotes`,
`acc` = the token built so far). The `fuel` argument only bounds the recursion (one
unit per loop iteration, which consumes one or two characters);
`command_parser_token_next_go_spec` shows the marker `error (other 999)` is unreachable
with the fuel the wrapper supplies. Returns `ok none` at end of string with no token
(the C function returns `NULL` without touching `errno`), `ok (some (token, rest))`
for a token and the updated `*remaining`, and `error EINVAL` for unterminated quotes
or an unterminated escape sequence. Allocation failures are not modelled. -/
def command_parser_token_next_go : Nat → List Char → Bool → Bool → Bool → List Char →
    Except Errno (Option (CToken × List Char))
  | 0, _, _, _, _, _ => .error (.other 999)
  | _ + 1, [], indq, insq, hbq, acc =>
    if indq || insq then .error .EINVAL
    else if acc ≠ [] ∨ hbq then .ok (some (⟨acc, false⟩, []))
    else .ok none
  | fuel + 1, c :: cs, indq, insq, hbq, acc =>
    if c = '"' then
      if insq then command_parser_token_next_go fuel cs indq insq true (acc ++ ['"'])
      else command_parser_token_next_go fuel cs (!indq) insq true acc
    else if c = '\'' then
      if indq then command_parser_token_next_go fuel cs indq insq true (acc ++ ['\''])
      else command_parser_token_next_go fuel cs indq (!insq) true acc
    else if c = '\\' then
      if insq then command_parser_token_next_go fuel cs indq insq hbq (acc ++ ['\\'])
      else
        match cs with
        | c2 :: cs2 =>
          if c2 = '\\' ∨ c2 = '"' ∨ (¬indq ∧ c2 = ' ') then
            command_parser_token_next_go fuel cs2 indq insq hbq (acc ++ [c2])
          else command_parser_token_next_go fuel cs2 indq insq hbq (acc ++ ['\\', c2])
        | [] => .error .EINVAL
    else if c = '\t' ∨ c = ' ' then
      if indq ∨ insq then command_parser_token_next_go fuel cs indq insq hbq (acc ++ [c])
      else if acc ≠ [] ∨ hbq then .ok (some (⟨acc, false⟩, cs))
      else command_parser_token_next_go fuel cs indq insq hbq acc
    else if c = '|' then
      if indq ∨ insq then command_parser_token_next_go fuel cs indq insq hbq (acc ++ ['|'])
      else if acc ≠ [] ∨ hbq then .ok (some (⟨acc, false⟩, c :: cs))
      else .ok (some (⟨['|'], true⟩, cs))
    else command_parser_token_next_go fuel cs indq insq hbq (acc ++ [c])

/-- Model of `__command_parser_token_next`, with fuel that provably suffices. -/
def command_parser_token_next (cursor : List Char) (indq insq hbq : Bool)
    (acc : List Char) : Except Errno (Option (CToken × List Char)) :=
  command_parser_token_next_go (cursor.length + 1) cursor indq insq hbq acc

/-- Loop of `command_parser_parse_task`: repeatedly takes tokens, collecting arguments
into the current program and programs into the task. The `fuel` argument only bounds
the recursion; `command_parser_parse_task` passes one more than the remaining length,
which the tokenizer progress property shows can never run out. -/
def command_parser_parse_task_go : Nat → List Char → List (List Char) →
    List (List (List Char)) → Except Errno (List (List (List Char)))
  | 0, _, _, _ => .error (.other 999)
  | fuel + 1, remaining, current, progs =>
    match command_parser_token_next remaining false false false [] with
    | .error e => .error e
    | .ok none => if current = [] then .error .EINVAL else .ok (progs ++ [current])
    | .ok (some (t, rest)) =>
      if t.is_pipe then
        if current = [] then .error .EINVAL
        else command_parser_parse_task_go fuel rest [] (progs ++ [current])
      else command_parser_parse_task_go fuel rest (current ++ [t.string]) progs

/-- Model of `command_parser_parse_task` (`server/command_parser.c`): parses a command
line into a pipeline, a list of programs each given by its argument strings. Empty
programs (adjacent, leading or trailing pipes, or an empty command line) and tokenizer
failures yield `EINVAL`. -/
def command_parser_parse_task (command_line : List Char) :
    Except Errno (List (List (List Char))) :=
  command_parser_parse_task_go (command_line.length + 1) command_line [] []

/-- Combined tokenizer invariant, by induction on fuel: with fuel exceeding the
remaining length the exhaustion marker is unreachable; the remainder after a token
never grows; and the remainder strictly shrinks when the call starts with an empty
accumulator and no quotes seen (as every call made by the parse loop does). -/
theorem command_parser_token_next_go_spec :
    ∀ (fuel : Nat) (cursor : List Char), cursor.length < fuel →
      ∀ (indq insq hbq : Bool) (acc : List Char),
        command_parser_token_next_go fuel cursor indq insq hbq acc ≠
          .error (.other 999) ∧
        (∀ (t : CToken) (rest : List Char),
          command_parser_token_next_go fuel cursor indq insq hbq acc =
            .ok (some (t, rest)) →
          rest.length ≤ cursor.length ∧
          (acc = [] → hbq = false → cursor ≠ [] → rest.length < cursor.length)) := by
  intro fuel
  induction fuel with
  | zero =>
    intro cursor hlen
    omega
  | succ n ih =>
    intro cursor hlen indq insq hbq acc
    cases cursor with
    | nil =>
      constructor
      · by_cases hq : (indq || insq) = true
        · simp [command_parser_token_next_go, hq]
        · by_cases ha : acc ≠ [] ∨ hbq = true
          · simp [command_parser_token_next_go, hq, ha]
          · simp [command_parser_token_next_go, hq, ha]
      · intro t rest h
        refine ⟨?_, fun _ _ hc => absurd rfl hc⟩
        by_cases hq : (indq || insq) = true
        · simp [command_parser_token_next_go, hq] at h
        · by_cases ha : acc ≠ [] ∨ hbq = true
          · simp only [command_parser_token_next_go] at h
            rw [if_neg hq, if_pos ha] at h
            simp at h
            simp [h.2]
          · simp only [command_parser_token_next_go] at h
            rw [if_neg hq, if_neg ha] at h
            simp at h
    | cons c cs =>
      have hcs : cs.length < n := by
        rw [List.length_cons] at hlen
        omega
      simp only [command_parser_token_next_go]
      by_cases h1 : c = '"'
      · rw [if_pos h1]
        by_cases h2 : insq = true
        · rw [if_pos h2]
          obtain ⟨hm, hp⟩ := ih cs hcs indq insq true (acc ++ ['"'])
          refine ⟨hm, fun t rest h => ?_⟩
          have hrec := (hp t rest h).1
          exact ⟨by simp; omega, fun _ _ _ => by simp; omega⟩
        · rw [if_neg h2]
          obtain ⟨hm, hp⟩ := ih cs hcs (!indq) insq true acc
          refine ⟨hm, fun t rest h => ?_⟩
          have hrec := (hp t rest h).1
          exact ⟨by simp; omega, fun _ _ _ => by simp; omega⟩
      · rw [if_neg h1]
        by_cases h2 : c = '\''
        · rw [if_pos h2]
          by_cases h3 : indq = true
          · rw [if_pos h3]
            obtain ⟨hm, hp⟩ := ih cs hcs indq insq true (acc ++ ['\''])
            refine ⟨hm, fun t rest h => ?_⟩
            have hrec := (hp t rest h).1
            exact ⟨by simp; omega, fun _ _ _ => by simp; omega⟩
          · rw [if_neg h3]
            obtain ⟨hm, hp⟩ := ih cs hcs indq (!insq) true acc
            refine ⟨hm, fun t rest h => ?_⟩
            have hrec := (hp t rest h).1
            exact ⟨by simp; omega, fun _ _ _ => by simp; omega⟩
        · rw [if_neg h2]
          by_cases h3 : c = '\\'
          · rw [if_pos h3]
            by_cases h4 : insq = true
            · rw [if_pos h4]
              obtain ⟨hm, hp⟩ := ih cs hcs indq insq hbq (acc ++ ['\\'])
              refine ⟨hm, fun t rest h => ?_⟩
              have hrec := (hp t rest h).1
              exact ⟨by simp; omega, fun _ _ _ => by simp; omega⟩
            · rw [if_neg h4]
              cases cs with
              | nil =>
                refine ⟨by simp, fun t rest h => by simp at h⟩
              | cons c2 cs2 =>
                have hcs2 : cs2.length < n := by
                  rw [List.length_cons] at hcs
                  omega
                simp only []
                by_cases h5 : c2 = '\\' ∨ c2 = '"' ∨ (¬indq = true ∧ c2 = ' ')
                · rw [if_pos h5]
                  obtain ⟨hm, hp⟩ := ih cs2 hcs2 indq insq hbq (acc ++ [c2])
                  refine ⟨hm, fun t rest h => ?_⟩
                  have hrec := (hp t rest h).1
                  refine ⟨?_, fun _ _ _ => ?_⟩ <;> · simp; omega
                · rw [if_neg h5]
                  obtain ⟨hm, hp⟩ := ih cs2 hcs2 indq insq hbq (acc ++ ['\\', c2])
                  refine ⟨hm, fun t rest h => ?_⟩
                  have hrec := (hp t rest h).1
                  refine ⟨?_, fun _ _ _ => ?_⟩ <;> · simp; omega
          · rw [if_neg h3]
            by_cases h4 : c = '\t' ∨ c = ' '
            · rw [if_pos h4]
              by_cases h5 : indq = true ∨ insq = true
              · rw [if_pos h5]
                obtain ⟨hm, hp⟩ := ih cs hcs indq insq hbq (acc ++ [c])
                refine ⟨hm, fun t rest h => ?_⟩
                have hrec := (hp t rest h).1
                exact ⟨by simp; omega, fun _ _ _ => by simp; omega⟩
              · rw [if_neg h5]
                by_cases h6 : acc ≠ [] ∨ hbq = true
                · rw [if_pos h6]
                  refine ⟨by simp, fun t rest h => ?_⟩
                  simp at h
                  obtain ⟨-, hr⟩ := h
                  subst hr
                  exact ⟨by simp, fun _ _ _ => by simp⟩
                · rw [if_neg h6]
                  obtain ⟨hm, hp⟩ := ih cs hcs indq insq hbq acc
                  refine ⟨hm, fun t rest h => ?_⟩
                  have hrec := (hp t rest h).1
                  exact ⟨by simp; omega, fun _ _ _ => by simp; omega⟩
            · rw [if_neg h4]
              by_cases h5 : c = '|'
              · rw [if_pos h5]
                by_cases h6 : indq = true ∨ insq = true
                · rw [if_pos h6]
                  obtain ⟨hm, hp⟩ := ih cs hcs indq insq hbq (acc ++ ['|'])
                  refine ⟨hm, fun t rest h => ?_⟩
                  have hrec := (hp t rest h).1
                  exact ⟨by simp; omega, fun _ _ _ => by simp; omega⟩
                · rw [if_neg h6]
                  by_cases h7 : acc ≠ [] ∨ hbq = true
                  · rw [if_pos h7]
                    refine ⟨by simp, fun t rest h => ?_⟩
                    simp at h
                    obtain ⟨-, hr⟩ := h
                    subst hr
                    refine ⟨le_refl _, fun hacc hhbq _ => ?_⟩
                    subst hacc
                    rcases h7 with h8 | h8
                    · exact absurd rfl h8
                    · rw [hhbq] at h8
                      cases h8
                  · rw [if_neg h7]
                    refine ⟨by simp, fun t rest h => ?_⟩
                    simp at h
                    obtain ⟨-, hr⟩ := h
                    subst hr
                    exact ⟨by simp, fun _ _ _ => by simp⟩
              · rw [if_neg h5]
                obtain ⟨hm, hp⟩ := ih cs hcs indq insq hbq (acc ++ [c])
                refine ⟨hm, fun t rest h => ?_⟩
                have hrec := (hp t rest h).1
                exact ⟨by simp; omega, fun _ _ _ => by simp; omega⟩

/-- Tokenizer progress property in the form used by the parse loop. -/
theorem command_parser_token_next_progress (cursor : List Char) (t : CToken)
    (rest : List Char)
    (h : command_parser_token_next cursor false false false [] = .ok (some (t, rest))) :
    cursor ≠ [] → rest.length < cursor.length :=
  fun hne =>
    ((command_parser_token_next_go_spec (cursor.length + 1) cursor (by omega)
      false false false []).2 t rest h).2 rfl rfl hne

/-- Fuel irrelevance for the parse loop: any fuel exceeding the remaining length gives
the same result, so the fuelled loop faithfully models the unbounded C loop. -/
theorem command_parser_parse_task_go_fuel_irrel :
    ∀ (f1 : Nat) (remaining : List Char) (current : List (List Char))
      (progs : List (List (List Char))) (f2 : Nat),
      remaining.length < f1 → remaining.length < f2 →
      command_parser_parse_task_go f1 remaining current progs =
        command_parser_parse_task_go f2 remaining current progs := by
  intro f1
  induction f1 with
  | zero =>
    intro remaining current progs f2 h1 h2
    omega
  | succ n ih =>
    intro remaining current progs f2 h1 h2
    cases f2 with
    | zero => omega
    | succ m =>
      simp only [command_parser_parse_task_go]
      cases htok : command_parser_token_next remaining false false false [] with
      | error e => rfl
      | ok o =>
        cases o with
        | none => rfl
        | some pr =>
          obtain ⟨t, rest⟩ := pr
          have hne : remaining ≠ [] := by
            intro hnil
            subst hnil
            simp [command_parser_token_next, command_parser_token_next_go] at htok
          have hlt2 := command_parser_token_next_progress remaining t rest htok hne
          by_cases hp : t.is_pipe = true
          · by_cases hc : current = []
            · simp [hp, hc]
            · have hrec := ih rest [] (progs ++ [current]) m (by omega) (by omega)
              simp [hp, hc, hrec]
          · have hrec := ih rest (current ++ [t.string]) progs m (by omega) (by omega)
            simp [hp, hrec]

/-- Model of `tagged_task_new_from_command_line` (`server/tagged_task.c`): duplicates
the command line, parses it into a pipeline and zeroes all timestamps. On parse
failure the parser's errno is returned unchanged (the parser sets `EINVAL`, although
`tagged_task.h` documents `EILSEQ` for parsing failure). -/
def tagged_task_new_from_command_line (command_line : List Char) (id : Nat)
    (expected_time : Nat) : Except Errno TaggedTask :=
  match command_parser_parse_task command_line with
  | .error e => .error e
  | .ok progs =>
    .ok { task := progs
          command_line := command_line
          id := id
          expected_time := expected_time
          times := fun _ => Timespec.zero }

/-- Stamping performed by `__server_requests_on_schedule_message` on a freshly created
task: `SENT` from the frame's client-reported timestamp, then `ARRIVED` from
`clock_gettime` (whose failure leaves the zero-initialized local, i.e. the absent
stamp). -/
def server_submit_stamp (t : TaggedTask) (time_sent : Timespec)
    (arrived_clock : Option Timespec) : TaggedTask :=
  let time_arrived := match arrived_clock with
    | some now => now
    | none => Timespec.zero
  setTimeIgnore (setTimeIgnore t TAGGED_TASK_TIME_SENT (some time_sent) none)
    TAGGED_TASK_TIME_ARRIVED (some time_arrived) none

/-- Message type discriminants of the submit messages. -/
inductive ProtocolC2SType where
  | SEND_PROGRAM
  | SEND_TASK
deriving DecidableEq

/-- A reply frame sent to the client by the schedule-message handler. -/
inductive ServerReply where
  | errorReply (text : List Char)
  | taskIdReply (id : Nat)
deriving DecidableEq

/-- Observable outcome of `__server_requests_on_schedule_message`: the reply frame sent
to the client (if any), the next-task-id counter after the call, and the task handed
to `scheduler_add_task` (if any). -/
structure ScheduleOutcome where
  reply : Option ServerReply
  next_task_id : Nat
  enqueued : Option TaggedTask

/-- Model of `__server_requests_on_schedule_message` (`server/server_requests.c`) after
a successful length check, on the decoded message fields. Scheduler insertion and the
reply transmission are modelled as succeeding (allocation and transport failures are
orthogonal to the claim under check). The C code replies `TASK_ID` with
`next_task_id - 1` read after the increment, which equals the entry value of the
counter; the counter is a `uint32_t`, hence the modular increment. -/
def server_requests_on_schedule_message (next_task_id : Nat)
    (msg_type : ProtocolC2SType) (command_line : List Char) (expected_time : Nat)
    (time_sent : Timespec) (arrived_clock : Option Timespec) : ScheduleOutcome :=
  match tagged_task_new_from_command_line command_line next_task_id expected_time with
  | .error e =>
    if e = .EILSEQ then
      { reply := some (.errorReply ("Parsing failure!".data))
        next_task_id := next_task_id
        enqueued := none }
    else
      { reply := none, next_task_id := next_task_id, enqueued := none }
  | .ok task0 =>
    let task := server_submit_stamp task0 time_sent arrived_clock
    if msg_type = .SEND_PROGRAM ∧ task.task.length ≠ 1 then
      { reply := some (.errorReply ("Parsing failure!".data))
        next_task_id := next_task_id
        enqueued := none }
    else
      { reply := some (.taskIdReply next_task_id)
        next_task_id := (next_task_id + 1) % 4294967296
        enqueued := some task }

/-- C2 (code bug): on a command line that fails to parse (here an unterminated double
quote), the parser and hence `tagged_task_new_from_command_line` fail with errno
`EINVAL`, but the handler treats only `EILSEQ` as a parsing failure, so it returns
without sending any reply to the client: no ERROR frame is produced (the claim and the
spec say one is), while the next-task-id counter is indeed not incremented. -/
theorem on_schedule_message_parse_failure_sends_no_reply :
    command_parser_parse_task ("echo \"unterminated".data) = .error .EINVAL ∧
    (server_requests_on_schedule_message 5 .SEND_TASK ("echo \"unterminated".data) 100
        ⟨3, 0⟩ (some ⟨4, 0⟩)).reply = none ∧
    (server_requests_on_schedule_message 5 .SEND_TASK ("echo \"unterminated".data) 100
        ⟨3, 0⟩ (some ⟨4, 0⟩)).next_task_id = 5 ∧
    (server_requests_on_schedule_message 5 .SEND_TASK ("echo \"unterminated".data) 100
        ⟨3, 0⟩ (some ⟨4, 0⟩)).enqueued = none ∧
    (server_requests_on_schedule_message 5 .SEND_PROGRAM ("echo \"unterminated".data)
        100 ⟨3, 0⟩ (some ⟨4, 0⟩)).reply = none :=
  ⟨rfl, rfl, rfl, rfl, rfl⟩

/-- Maximum command-line length storable in protocol messages and log records
(`PROTOCOL_MAXIMUM_COMMAND_LENGTH`: the maximum message payload minus the fixed prefix
of one type byte, a 4-byte pid, a 16-byte timespec and a 4-byte expected time). -/
def PROTOCOL_MAXIMUM_COMMAND_LENGTH : Nat :=
  IPC_MAXIMUM_MESSAGE_LENGTH - 1 - 4 - 16 - 4

/-- Length of a C string stored in a character list (`strlen`): the number of
characters before the first NUL. -/
def strlenChars (s : List Char) : Nat :=
  (s.takeWhile (fun c => c != '\x00')).length

/-- Model of `log_file_serialized_task_t` (`server/log_file.c`): the fixed-size log
record. `command_line` holds `PROTOCOL_MAXIMUM_COMMAND_LENGTH` bytes, zero padded. -/
structure LogFileSerializedTask where
  id : Nat
  command_length : Nat
  expected_time : Nat
  error : Nat
  times : Nat → Timespec
  command_line : List Char

/-- Record built by `__log_file_serialize_task` once the length check has passed: each
timestamp is read through `tagged_task_get_time`, absent stamps serializing as zeros;
the command line is copied and zero padded to the fixed width. -/
def log_file_serialize_record (task : TaggedTask) (error : Nat) :
    LogFileSerializedTask :=
  { id := task.id
    command_length := strlenChars task.command_line
    expected_time := task.expected_time
    error := error
    times := fun i =>
      if i ≤ TAGGED_TASK_TIME_COMPLETED then
        match tagged_task_get_time task i with
        | .ok ts => ts
        | .error _ => Timespec.zero
      else Timespec.zero
    command_line := task.command_line.take (strlenChars task.command_line) ++
      List.replicate (PROTOCOL_MAXIMUM_COMMAND_LENGTH - strlenChars task.command_line)
        '\x00' }

/-- Model of `__log_file_serialize_task` (`server/log_file.c`): fails with `EMSGSIZE`
when the command line exceeds the record width. -/
def log_file_serialize_task (task : TaggedTask) (error : Nat) :
    Except Errno LogFileSerializedTask :=
  if strlenChars task.command_line > PROTOCOL_MAXIMUM_COMMAND_LENGTH then
    .error .EMSGSIZE
  else .ok (log_file_serialize_record task error)

/-- Model of `__log_file_deserialize_task` (`server/log_file.c`): rejects impossible
command lengths with `EMSGSIZE`, rebuilds the task from the stored command line (the
parser's errno propagating on failure) and restores the five stored timestamps. -/
def log_file_deserialize_task (st : LogFileSerializedTask) : Except Errno TaggedTask :=
  if st.command_length ≤ PROTOCOL_MAXIMUM_COMMAND_LENGTH then
    match tagged_task_new_from_command_line (st.command_line.take st.command_length)
        st.id st.expected_time with
    | .error e => .error e
    | .ok ret =>
      .ok (List.foldl (fun t i => setTimeIgnore t i (some (st.times i)) none) ret
        [0, 1, 2, 3, 4])
  else .error .EMSGSIZE

/-- A character list with no NUL has its full length as its C string length. -/
theorem strlenChars_eq (s : List Char) (h : ∀ c ∈ s, c ≠ '\x00') :
    strlenChars s = s.length := by
  unfold strlenChars
  induction s with
  | nil => rfl
  | cons c cs ih =>
    have hc : (c != '\x00') = true := by
      simp only [bne_iff_ne]
      exact h c (by simp)
    rw [List.takeWhile_cons, if_pos hc, List.length_cons, List.length_cons]
    rw [ih (fun x hx => h x (by simp [hx]))]

/-- Serialized timestamps equal the task's stored timestamps at every valid phase
(reading through `tagged_task_get_time` collapses absent stamps back to zeros). -/
theorem log_file_serialize_record_times (task : TaggedTask) (error : Nat) (i : Nat)
    (h : i ≤ TAGGED_TASK_TIME_COMPLETED) :
    (log_file_serialize_record task error).times i = task.times i := by
  simp only [log_file_serialize_record]
  rw [if_pos h]
  have h2 : ¬ i > TAGGED_TASK_TIME_COMPLETED := by omega
  by_cases hz : task.times i = Timespec.zero
  · simp [tagged_task_get_time, h2, hz]
  · simp [tagged_task_get_time, h2, hz]

/-- C8: for every TaggedTask whose command line is a NUL-free nonempty string that fits
the record width and parses successfully, serializing to a log record and
deserializing that record yields a task equal to the original in id, expected
duration, command line and all five timestamps (with absent stamps preserved as
absent), and the record preserves the error flag. -/
theorem log_file_round_trip (task : TaggedTask) (error : Nat)
    (hnull : ∀ c ∈ task.command_line, c ≠ '\x00')
    (hne : task.command_line ≠ [])
    (hlen : task.command_line.length ≤ PROTOCOL_MAXIMUM_COMMAND_LENGTH)
    (hparse : ∃ p, command_parser_parse_task task.command_line = .ok p) :
    ∃ st t2,
      log_file_serialize_task task error = .ok st ∧
      st.error = error ∧
      log_file_deserialize_task st = .ok t2 ∧
      t2.id = task.id ∧
      t2.expected_time = task.expected_time ∧
      t2.command_line = task.command_line ∧
      (∀ i, i ≤ TAGGED_TASK_TIME_COMPLETED → t2.times i = task.times i) := by
  obtain ⟨p, hp⟩ := hparse
  have hstrlen : strlenChars task.command_line = task.command_line.length :=
    strlenChars_eq task.command_line hnull
  have hser : log_file_serialize_task task error =
      .ok (log_file_serialize_record task error) := by
    unfold log_file_serialize_task
    rw [if_neg (by omega)]
  have hcmd : (log_file_serialize_record task error).command_line.take
      (log_file_serialize_record task error).command_length = task.command_line := by
    simp only [log_file_serialize_record]
    rw [hstrlen, List.take_length]
    have : task.command_line.length =
        (task.command_line).length := rfl
    rw [show (task.command_line ++ List.replicate
        (PROTOCOL_MAXIMUM_COMMAND_LENGTH - task.command_line.length) '\x00').take
        task.command_line.length = task.command_line from List.take_left _ _]
  refine ⟨log_file_serialize_record task error, ?_⟩
  have hlen2 : (log_file_serialize_record task error).command_length ≤
      PROTOCOL_MAXIMUM_COMMAND_LENGTH := by
    simp only [log_file_serialize_record]
    omega
  have hnew : tagged_task_new_from_command_line
      ((log_file_serialize_record task error).command_line.take
        (log_file_serialize_record task error).command_length)
      (log_file_serialize_record task error).id
      (log_file_serialize_record task error).expected_time =
      .ok { task := p
            command_line := task.command_line
            id := task.id
            expected_time := task.expected_time
            times := fun _ => Timespec.zero } := by
    rw [hcmd]
    unfold tagged_task_new_from_command_line
    rw [hp]
    rfl
  refine ⟨List.foldl (fun t i => setTimeIgnore t i
      (some ((log_file_serialize_record task error).times i)) none)
      { task := p
        command_line := task.command_line
        id := task.id
        expected_time := task.expected_time
        times := fun _ => Timespec.zero } [0, 1, 2, 3, 4], hser, rfl, ?_, ?_, ?_, ?_, ?_⟩
  · unfold log_file_deserialize_task
    rw [if_pos hlen2, hnew]
  · rfl
  · rfl
  · rfl
  · intro i hi
    have hi4 : i ≤ 4 := hi
    have hrt := log_file_serialize_record_times task error
    simp only [List.foldl_cons, List.foldl_nil, setTimeIgnore, tagged_task_set_time,
      TAGGED_TASK_TIME_COMPLETED, updTimes]
    norm_num
    interval_cases i <;>
      simp_all [TAGGED_TASK_TIME_COMPLETED, updTimes]

/-- A concrete logged task used by the round-trip witness. -/
def sampleLoggedTask : TaggedTask :=
  { task := [[['e', 'c', 'h', 'o'], ['h', 'i']]]
    command_line := "echo hi".data
    id := 3
    expected_time := 7
    times := updTimes (updTimes (fun _ => Timespec.zero) 0 ⟨1, 2⟩) 4 ⟨9, 1⟩ }

/-- Witness for `log_file_round_trip` at a concrete task with error flag 1. -/
theorem log_file_round_trip_witness :
    (∀ c ∈ sampleLoggedTask.command_line, c ≠ '\x00') ∧
    sampleLoggedTask.command_line ≠ [] ∧
    sampleLoggedTask.command_line.length ≤ PROTOCOL_MAXIMUM_COMMAND_LENGTH ∧
    (∃ st t2,
      log_file_serialize_task sampleLoggedTask 1 = .ok st ∧
      st.error = 1 ∧
      log_file_deserialize_task st = .ok t2 ∧
      t2.id = sampleLoggedTask.id ∧
      t2.expected_time = sampleLoggedTask.expected_time ∧
      t2.command_line = sampleLoggedTask.command_line ∧
      (∀ i, i ≤ TAGGED_TASK_TIME_COMPLETED → t2.times i = sampleLoggedTask.times i)) :=
  ⟨by decide, by decide, by decide,
   log_file_round_trip sampleLoggedTask 1 (by decide) (by decide) (by decide)
     ⟨[[['e', 'c', 'h', 'o'], ['h', 'i']]], rfl⟩⟩

/-- Stamp written by `scheduler_dispatch_possible` before forking: `DISPATCHED` from
`clock_gettime` (NULL time pointer). -/
def scheduler_dispatch_stamp (t : TaggedTask) (clock : Option Timespec) : TaggedTask :=
  setTimeIgnore t TAGGED_TASK_TIME_DISPATCHED none clock

/-- Stamps written by `scheduler_mark_done` on success: `ENDED` from the reported
timestamp, then `COMPLETED` from `clock_gettime`. -/
def scheduler_complete_stamp (t : TaggedTask) (time_ended : Timespec)
    (clock : Option Timespec) : TaggedTask :=
  setTimeIgnore (setTimeIgnore t TAGGED_TASK_TIME_ENDED (some time_ended) none)
    TAGGED_TASK_TIME_COMPLETED none clock

/-- The timespec a `clock_gettime` outcome stores (a failed read stores zeros). -/
def clockVal (c : Option Timespec) : Timespec :=
  match c with
  | some now => now
  | none => Timespec.zero

/-- Order between two clock values that holds vacuously when either is absent. -/
def presentLe (a b : Timespec) : Prop :=
  a ≠ Timespec.zero → b ≠ Timespec.zero → Timespec.le a b

instance (a b : Timespec) : Decidable (presentLe a b) := by
  unfold presentLe
  infer_instance

/-- A created task has all timestamps absent. -/
theorem tagged_task_new_times (cmd : List Char) (id exp : Nat) (t : TaggedTask)
    (h : tagged_task_new_from_command_line cmd id exp = .ok t) :
    t.times = fun _ => Timespec.zero := by
  unfold tagged_task_new_from_command_line at h
  cases hp : command_parser_parse_task cmd with
  | error e =>
    rw [hp] at h
    cases h
  | ok p =>
    rw [hp] at h
    simp only [Except.ok.injEq] at h
    rw [← h]

/-- Tasks reachable through the server's lifecycle operations on submitted tasks:
creation (all stamps absent), submission (`SENT` from the frame then `ARRIVED` from
the clock), dispatch (`DISPATCHED` from the clock), completion (`ENDED` from the
`TASK_DONE` frame then `COMPLETED` from the clock). Each constructor carries the
claim's assumption that the monotonic clock readings taken in that order are
non-decreasing (vacuous for a reading that failed and stored zeros). -/
inductive ServerTask : TaggedTask → Prop where
  | created (cmd : List Char) (id exp : Nat) (t : TaggedTask)
      (h : tagged_task_new_from_command_line cmd id exp = .ok t) : ServerTask t
  | submitted (cmd : List Char) (id exp : Nat) (t : TaggedTask)
      (h : tagged_task_new_from_command_line cmd id exp = .ok t)
      (s : Timespec) (ac : Option Timespec)
      (hsa : presentLe s (clockVal ac)) :
      ServerTask (server_submit_stamp t s ac)
  | dispatched (cmd : List Char) (id exp : Nat) (t : TaggedTask)
      (h : tagged_task_new_from_command_line cmd id exp = .ok t)
      (s : Timespec) (ac dc : Option Timespec)
      (hsa : presentLe s (clockVal ac))
      (hsd : presentLe s (clockVal dc))
      (had : presentLe (clockVal ac) (clockVal dc)) :
      ServerTask (scheduler_dispatch_stamp (server_submit_stamp t s ac) dc)
  | completed (cmd : List Char) (id exp : Nat) (t : TaggedTask)
      (h : tagged_task_new_from_command_line cmd id exp = .ok t)
      (s : Timespec) (ac dc : Option Timespec) (e : Timespec) (cc : Option Timespec)
      (hsa : presentLe s (clockVal ac))
      (hsd : presentLe s (clockVal dc))
      (hse : presentLe s e)
      (hsc : presentLe s (clockVal cc))
      (had : presentLe (clockVal ac) (clockVal dc))
      (hae : presentLe (clockVal ac) e)
      (hac : presentLe (clockVal ac) (clockVal cc))
      (hde : presentLe (clockVal dc) e)
      (hdc : presentLe (clockVal dc) (clockVal cc))
      (hec : presentLe e (clockVal cc)) :
      ServerTask (scheduler_complete_stamp
        (scheduler_dispatch_stamp (server_submit_stamp t s ac) dc) e cc)

/-- C9: every task produced by a reachable sequence of server lifecycle operations has
its present timestamps in the order SENT ≤ ARRIVED ≤ DISPATCHED ≤ ENDED ≤ COMPLETED,
assuming the clock readings taken in that order are non-decreasing. -/
theorem server_task_times_monotone (t : TaggedTask) (h : ServerTask t) :
    ∀ i j, i ≤ j → j ≤ TAGGED_TASK_TIME_COMPLETED →
      t.times i ≠ Timespec.zero → t.times j ≠ Timespec.zero →
      Timespec.le (t.times i) (t.times j) := by
  induction h with
  | created cmd id exp t h =>
    intro i j hij hj4 hpi hpj
    rw [tagged_task_new_times cmd id exp t h] at hpi
    exact absurd rfl hpi
  | submitted cmd id exp t h s ac hsa =>
    have ht := tagged_task_new_times cmd id exp t h
    have htimes : ∀ k, (server_submit_stamp t s ac).times k =
        if k = 1 then clockVal ac else if k = 0 then s else Timespec.zero := by
      intro k
      simp [server_submit_stamp, setTimeIgnore, tagged_task_set_time,
        TAGGED_TASK_TIME_SENT, TAGGED_TASK_TIME_ARRIVED, TAGGED_TASK_TIME_COMPLETED,
        updTimes, ht, clockVal]
    intro i j hij hj4 hpi hpj
    rw [htimes] at hpi hpj
    rw [htimes i, htimes j]
    have hj : j ≤ 4 := hj4
    interval_cases j <;> interval_cases i <;> simp_all [presentLe, Timespec.le]
  | dispatched cmd id exp t h s ac dc hsa hsd had =>
    have ht := tagged_task_new_times cmd id exp t h
    have htimes : ∀ k, (scheduler_dispatch_stamp (server_submit_stamp t s ac) dc).times k =
        if k = 2 then clockVal dc else if k = 1 then clockVal ac
        else if k = 0 then s else Timespec.zero := by
      intro k
      simp [scheduler_dispatch_stamp, server_submit_stamp, setTimeIgnore,
        tagged_task_set_time, TAGGED_TASK_TIME_SENT, TAGGED_TASK_TIME_ARRIVED,
        TAGGED_TASK_TIME_DISPATCHED, TAGGED_TASK_TIME_COMPLETED, updTimes, ht, clockVal]
      cases dc <;> simp [clockVal, updTimes]
    intro i j hij hj4 hpi hpj
    rw [htimes] at hpi hpj
    rw [htimes i, htimes j]
    have hj : j ≤ 4 := hj4
    interval_cases j <;> interval_cases i <;> simp_all [presentLe, Timespec.le]
  | completed cmd id exp t h s ac dc e cc hsa hsd hse hsc had hae hac hde hdc hec =>
    have ht := tagged_task_new_times cmd id exp t h
    have htimes : ∀ k, (scheduler_complete_stamp
        (scheduler_dispatch_stamp (server_submit_stamp t s ac) dc) e cc).times k =
        if k = 4 then clockVal cc else if k = 3 then e
        else if k = 2 then clockVal dc else if k = 1 then clockVal ac
        else if k = 0 then s else Timespec.zero := by
      intro k
      simp [scheduler_complete_stamp, scheduler_dispatch_stamp, server_submit_stamp,
        setTimeIgnore, tagged_task_set_time, TAGGED_TASK_TIME_SENT,
        TAGGED_TASK_TIME_ARRIVED, TAGGED_TASK_TIME_DISPATCHED, TAGGED_TASK_TIME_ENDED,
        TAGGED_TASK_TIME_COMPLETED, updTimes, ht, clockVal]
      cases dc <;> cases cc <;> simp [clockVal, updTimes]
    intro i j hij hj4 hpi hpj
    rw [htimes] at hpi hpj
    rw [htimes i, htimes j]
    have hj : j ≤ 4 := hj4
    interval_cases j <;> interval_cases i <;> simp_all [presentLe, Timespec.le]

/-- The created task used by the lifecycle witness. -/
def sampleCreatedTask : TaggedTask :=
  { task := [[['e', 'c', 'h', 'o'], ['h', 'i']]]
    command_line := "echo hi".data
    id := 1
    expected_time := 7
    times := fun _ => Timespec.zero }

/-- A concrete task taken through the full lifecycle with increasing clock readings. -/
def sampleLifecycleTask : TaggedTask :=
  scheduler_complete_stamp
    (scheduler_dispatch_stamp
      (server_submit_stamp sampleCreatedTask ⟨1, 0⟩ (some ⟨2, 0⟩)) (some ⟨3, 0⟩))
    ⟨4, 0⟩ (some ⟨5, 0⟩)

/-- Witness for `server_task_times_monotone`: the sample lifecycle task has
SENT ≤ COMPLETED. -/
theorem server_task_times_monotone_witness :
    Timespec.le (sampleLifecycleTask.times TAGGED_TASK_TIME_SENT)
      (sampleLifecycleTask.times TAGGED_TASK_TIME_COMPLETED) :=
  server_task_times_monotone sampleLifecycleTask
    (ServerTask.completed ("echo hi".data) 1 7 sampleCreatedTask rfl ⟨1, 0⟩
      (some ⟨2, 0⟩) (some ⟨3, 0⟩) ⟨4, 0⟩ (some ⟨5, 0⟩) (by decide) (by decide)
      (by decide) (by decide) (by decide) (by decide) (by decide) (by decide)
      (by decide) (by decide))
    TAGGED_TASK_TIME_SENT TAGGED_TASK_TIME_COMPLETED (by decide) (by decide)
    (by decide) (by decide)

/-- The frame signature `IPC_MESSAGE_HEADER_SIGNATURE` (`ipc.c`). -/
def IPC_MESSAGE_HEADER_SIGNATURE : Nat := 0xFEEDFEED

/-- Little-endian 32-bit value read from four bytes, as the packed `ipc_frame_t`
header fields are read on the target platform. -/
def u32le (b0 b1 b2 b3 : Nat) : Nat :=
  b0 + 256 * b1 + 65536 * b2 + 16777216 * b3

/-- Little-endian byte encoding of a 32-bit value. -/
def u32leBytes (n : Nat) : List Nat :=
  [n % 256, n / 256 % 256, n / 65536 % 256, n / 16777216 % 256]

/-- On-wire bytes of a frame carrying the given payload: signature, little-endian
payload length, payload. -/
def frameBytes (p : List Nat) : List Nat :=
  u32leBytes IPC_MESSAGE_HEADER_SIGNATURE ++ u32leBytes p.length ++ p

/-- How one round of the frame-parsing loop of `ipc_listen` ended. -/
inductive RoundExit where
  | small
  | incomplete
  | flushed
  | eofClosed
  | outOfFuel
deriving DecidableEq

/-- Result of one round of the frame-parsing loop: payloads delivered to the callback,
the unparsed remainder at the parse position, and how the loop ended. -/
structure FrameParseResult where
  outputs : List (List Nat)
  leftover : List Nat
  exit : RoundExit

/-- Inner frame-parsing loop of `ipc_listen` (`ipc.c`) over one receive buffer, with
`atEof` the `bytes_read == 0` flag. While more than eight bytes remain it validates
the signature and the declared payload length; an invalid frame flushes and closes the
connection (`__ipc_flush_and_close`); an incomplete frame is dropped at end of file
and otherwise kept for the next read; a validated frame's payload is delivered to the
callback (which, as in the server, always returns 0). The `fuel` only bounds the
loop; `ipc_parse_frames_go_no_fuel_exit` shows the wrapper's fuel suffices. -/
def ipc_parse_frames_go : Nat → List Nat → Bool → FrameParseResult
  | 0, buffer, _ => ⟨[], buffer, .outOfFuel⟩
  | fuel + 1, buffer, atEof =>
    match buffer with
    | b0 :: b1 :: b2 :: b3 :: b4 :: b5 :: b6 :: b7 :: b8 :: rest =>
      if u32le b0 b1 b2 b3 ≠ IPC_MESSAGE_HEADER_SIGNATURE ∨
          u32le b4 b5 b6 b7 = 0 ∨
          u32le b4 b5 b6 b7 > IPC_MAXIMUM_MESSAGE_LENGTH then
        ⟨[], [], .flushed⟩
      else if u32le b4 b5 b6 b7 + 8 >
          (b0 :: b1 :: b2 :: b3 :: b4 :: b5 :: b6 :: b7 :: b8 :: rest).length then
        if atEof then
          ⟨[], b0 :: b1 :: b2 :: b3 :: b4 :: b5 :: b6 :: b7 :: b8 :: rest, .eofClosed⟩
        else
          ⟨[], b0 :: b1 :: b2 :: b3 :: b4 :: b5 :: b6 :: b7 :: b8 :: rest, .incomplete⟩
      else
        let r := ipc_parse_frames_go fuel
          ((b0 :: b1 :: b2 :: b3 :: b4 :: b5 :: b6 :: b7 :: b8 :: rest).drop
            (u32le b4 b5 b6 b7 + 8)) atEof
        ⟨(b8 :: rest).take (u32le b4 b5 b6 b7) :: r.outputs, r.leftover, r.exit⟩
    | _ => ⟨[], buffer, .small⟩

/-- One round of the frame-parsing loop, with fuel that provably suffices. -/
def ipc_parse_frames (buffer : List Nat) (atEof : Bool) : FrameParseResult :=
  ipc_parse_frames_go (buffer.length + 1) buffer atEof

/-- With fuel exceeding the buffer length the fuel marker is unreachable. -/
theorem ipc_parse_frames_go_no_fuel_exit :
    ∀ (fuel : Nat) (buffer : List Nat) (atEof : Bool), buffer.length < fuel →
      (ipc_parse_frames_go fuel buffer atEof).exit ≠ .outOfFuel := by
  intro fuel
  induction fuel with
  | zero =>
    intro buffer atEof h
    omega
  | succ n ih =>
    intro buffer atEof h
    rcases buffer with _ | ⟨b0, _ | ⟨b1, _ | ⟨b2, _ | ⟨b3, _ | ⟨b4, _ | ⟨b5, _ |
      ⟨b6, _ | ⟨b7, _ | ⟨b8, rest⟩⟩⟩⟩⟩⟩⟩⟩⟩ <;>
      try · simp [ipc_parse_frames_go]
    simp only [ipc_parse_frames_go]
    by_cases h1 : u32le b0 b1 b2 b3 ≠ IPC_MESSAGE_HEADER_SIGNATURE ∨
        u32le b4 b5 b6 b7 = 0 ∨ u32le b4 b5 b6 b7 > IPC_MAXIMUM_MESSAGE_LENGTH
    · rw [if_pos h1]
      simp
    · rw [if_neg h1]
      by_cases h2 : u32le b4 b5 b6 b7 + 8 >
          (b0 :: b1 :: b2 :: b3 :: b4 :: b5 :: b6 :: b7 :: b8 :: rest).length
      · rw [if_pos h2]
        cases atEof <;> simp
      · rw [if_neg h2]
        have hlen2 : ((b0 :: b1 :: b2 :: b3 :: b4 :: b5 :: b6 :: b7 :: b8 ::
            rest).drop (u32le b4 b5 b6 b7 + 8)).length < n := by
          rw [List.length_drop]
          have hnz : u32le b4 b5 b6 b7 ≠ 0 := by
            intro hz
            exact h1 (Or.inr (Or.inl hz))
          simp only [List.length_cons] at h ⊢
          omega
        exact ih _ atEof hlen2

/-- Every byte of a round's unparsed remainder came from the round's buffer. -/
theorem ipc_parse_frames_go_leftover_sub :
    ∀ (fuel : Nat) (buffer : List Nat) (atEof : Bool) (b : Nat),
      b ∈ (ipc_parse_frames_go fuel buffer atEof).leftover → b ∈ buffer := by
  intro fuel
  induction fuel with
  | zero =>
    intro buffer atEof b hb
    simpa [ipc_parse_frames_go] using hb
  | succ n ih =>
    intro buffer atEof b hb
    rcases buffer with _ | ⟨b0, _ | ⟨b1, _ | ⟨b2, _ | ⟨b3, _ | ⟨b4, _ | ⟨b5, _ |
      ⟨b6, _ | ⟨b7, _ | ⟨b8, rest⟩⟩⟩⟩⟩⟩⟩⟩⟩ <;>
      try · simpa [ipc_parse_frames_go] using hb
    simp only [ipc_parse_frames_go] at hb
    by_cases h1 : u32le b0 b1 b2 b3 ≠ IPC_MESSAGE_HEADER_SIGNATURE ∨
        u32le b4 b5 b6 b7 = 0 ∨ u32le b4 b5 b6 b7 > IPC_MAXIMUM_MESSAGE_LENGTH
    · rw [if_pos h1] at hb
      simp at hb
    · rw [if_neg h1] at hb
      by_cases h2 : u32le b4 b5 b6 b7 + 8 >
          (b0 :: b1 :: b2 :: b3 :: b4 :: b5 :: b6 :: b7 :: b8 :: rest).length
      · rw [if_pos h2] at hb
        cases atEof <;> simpa using hb
      · rw [if_neg h2] at hb
        have := ih _ atEof b hb
        exact List.mem_of_mem_drop this

/-- Soundness of one parsing round: every payload delivered to the callback has a
positive length within the maximum, and the full frame (signature, little-endian
length, payload) occurs contiguously in the round's receive buffer. -/
theorem ipc_parse_frames_go_sound :
    ∀ (fuel : Nat) (buffer : List Nat) (atEof : Bool), (∀ b ∈ buffer, b < 256) →
      ∀ p ∈ (ipc_parse_frames_go fuel buffer atEof).outputs,
        0 < p.length ∧ p.length ≤ IPC_MAXIMUM_MESSAGE_LENGTH ∧
        frameBytes p <:+: buffer := by
  intro fuel
  induction fuel with
  | zero =>
    intro buffer atEof hbytes p hp
    simp [ipc_parse_frames_go] at hp
  | succ n ih =>
    intro buffer atEof hbytes p hp
    rcases buffer with _ | ⟨b0, _ | ⟨b1, _ | ⟨b2, _ | ⟨b3, _ | ⟨b4, _ | ⟨b5, _ |
      ⟨b6, _ | ⟨b7, _ | ⟨b8, rest⟩⟩⟩⟩⟩⟩⟩⟩⟩ <;>
      try · simp [ipc_parse_frames_go] at hp
    simp only [ipc_parse_frames_go] at hp
    by_cases h1 : u32le b0 b1 b2 b3 ≠ IPC_MESSAGE_HEADER_SIGNATURE ∨
        u32le b4 b5 b6 b7 = 0 ∨ u32le b4 b5 b6 b7 > IPC_MAXIMUM_MESSAGE_LENGTH
    · rw [if_pos h1] at hp
      simp at hp
    · rw [if_neg h1] at hp
      push_neg at h1
      obtain ⟨hsig, hnz, hmax⟩ := h1
      by_cases h2 : u32le b4 b5 b6 b7 + 8 >
          (b0 :: b1 :: b2 :: b3 :: b4 :: b5 :: b6 :: b7 :: b8 :: rest).length
      · rw [if_pos h2] at hp
        cases atEof <;> simp at hp
      · rw [if_neg h2] at hp
        simp only [List.mem_cons] at hp
        rcases hp with hp | hp
        · subst hp
          have hlen : ((b8 :: rest).take (u32le b4 b5 b6 b7)).length =
              u32le b4 b5 b6 b7 := by
            rw [List.length_take]
            simp only [List.length_cons] at h2
            simp only [List.length_cons]
            omega
          refine ⟨by omega, by omega, ?_⟩
          have hb0 : b0 < 256 := hbytes b0 (by simp)
          have hb1 : b1 < 256 := hbytes b1 (by simp)
          have hb2 : b2 < 256 := hbytes b2 (by simp)
          have hb3 : b3 < 256 := hbytes b3 (by simp)
          have hb4 : b4 < 256 := hbytes b4 (by simp)
          have hb5 : b5 < 256 := hbytes b5 (by simp)
          have hb6 : b6 < 256 := hbytes b6 (by simp)
          have hb7 : b7 < 256 := hbytes b7 (by simp)
          have hsig2 : b0 = 237 ∧ b1 = 254 ∧ b2 = 237 ∧ b3 = 254 := by
            unfold u32le IPC_MESSAGE_HEADER_SIGNATURE at hsig
            refine ⟨by omega, by omega, by omega, by omega⟩
          have hlb : u32leBytes (u32le b4 b5 b6 b7) = [b4, b5, b6, b7] := by
            unfold u32leBytes u32le
            have e4 : (b4 + 256 * b5 + 65536 * b6 + 16777216 * b7) % 256 = b4 := by
              omega
            have e5 : (b4 + 256 * b5 + 65536 * b6 + 16777216 * b7) / 256 % 256 = b5 := by
              omega
            have e6 : (b4 + 256 * b5 + 65536 * b6 + 16777216 * b7) / 65536 % 256 =
                b6 := by
              omega
            have e7 : (b4 + 256 * b5 + 65536 * b6 + 16777216 * b7) / 16777216 % 256 =
                b7 := by
              omega
            rw [e4, e5, e6, e7]
          have hframe : frameBytes ((b8 :: rest).take (u32le b4 b5 b6 b7)) =
              (b0 :: b1 :: b2 :: b3 :: b4 :: b5 :: b6 :: b7 :: b8 :: rest).take
                (u32le b4 b5 b6 b7 + 8) := by
            obtain ⟨e0, e1, e2, e3⟩ := hsig2
            subst e0
            subst e1
            subst e2
            subst e3
            unfold frameBytes
            rw [hlen, hlb]
            rfl
          rw [hframe]
          exact (List.take_prefix _ _).isInfix
        · have hbytes2 : ∀ b ∈ (b0 :: b1 :: b2 :: b3 :: b4 :: b5 :: b6 :: b7 :: b8 ::
              rest).drop (u32le b4 b5 b6 b7 + 8), b < 256 :=
            fun b hb => hbytes b (List.mem_of_mem_drop hb)
          obtain ⟨ha, hbb, hinf⟩ := ih _ atEof hbytes2 p hp
          exact ⟨ha, hbb, hinf.trans (List.drop_suffix _ _).isInfix⟩

/-- Model of the per-connection loop of `ipc_listen` across one FIFO session: `carry`
is the content of `buf[0 .. residuals)` (initially empty) and `chunks` the successive
successful `read` results, the final end-of-file read being implicit. Each round
parses `carry ++ chunk`; an invalid frame drains and closes the session, discarding
the remaining chunks; an incomplete frame's bytes are kept (`memmove`, `residuals`
updated); a leftover of at most eight bytes is dropped with a diagnostic and
`residuals` is left unchanged, as in the C code. -/
def ipc_listen_session (carry : List Nat) : List (List Nat) → List (List Nat)
  | [] => (ipc_parse_frames carry true).outputs
  | chunk :: rest =>
    let r := ipc_parse_frames (carry ++ chunk) false
    match r.exit with
    | .incomplete => r.outputs ++ ipc_listen_session r.leftover rest
    | .small => r.outputs ++ ipc_listen_session carry rest
    | _ => r.outputs

/-- The receive buffers examined by the rounds of `ipc_listen_session`, in order. -/
def ipc_listen_session_buffers (carry : List Nat) : List (List Nat) → List (List Nat)
  | [] => [carry]
  | chunk :: rest =>
    let r := ipc_parse_frames (carry ++ chunk) false
    match r.exit with
    | .incomplete => (carry ++ chunk) :: ipc_listen_session_buffers r.leftover rest
    | .small => (carry ++ chunk) :: ipc_listen_session_buffers carry rest
    | _ => [carry ++ chunk]

/-- C5: over any FIFO session, the listener invokes the message callback only on
payloads of validated frames: each delivered payload has length `L` with
`0 < L ≤ IPC_MAXIMUM_MESSAGE_LENGTH` and is immediately preceded, in the receive
buffer of its round, by the magic signature `0xFEEDFEED` and the little-endian
encoding of `L`; and a frame failing these checks makes the round flush and close the
session, so no callback is invoked on it or on anything after it in the session. -/
theorem ipc_listen_validated_frames_only (carry : List Nat) (chunks : List (List Nat))
    (hc : ∀ b ∈ carry, b < 256) (hcs : ∀ ch ∈ chunks, ∀ b ∈ ch, b < 256) :
    (∀ p ∈ ipc_listen_session carry chunks,
      0 < p.length ∧ p.length ≤ IPC_MAXIMUM_MESSAGE_LENGTH ∧
      ∃ B ∈ ipc_listen_session_buffers carry chunks, frameBytes p <:+: B) ∧
    (∀ chunk rest, chunks = chunk :: rest →
      (ipc_parse_frames (carry ++ chunk) false).exit = .flushed →
      ipc_listen_session carry chunks =
        (ipc_parse_frames (carry ++ chunk) false).outputs) := by
  constructor
  · induction chunks generalizing carry with
    | nil =>
      intro p hp
      simp only [ipc_listen_session] at hp
      obtain ⟨ha, hb, hinf⟩ :=
        ipc_parse_frames_go_sound (carry.length + 1) carry true hc p hp
      exact ⟨ha, hb, carry, by simp [ipc_listen_session_buffers], hinf⟩
    | cons chunk rest ih =>
      intro p hp
      have hbuf : ∀ b ∈ carry ++ chunk, b < 256 := by
        intro b hb
        rcases List.mem_append.mp hb with h | h
        · exact hc b h
        · exact hcs chunk (by simp) b h
      have hrest : ∀ ch ∈ rest, ∀ b ∈ ch, b < 256 :=
        fun ch hch => hcs ch (by simp [hch])
      simp only [ipc_listen_session] at hp
      cases hexit : (ipc_parse_frames (carry ++ chunk) false).exit with
      | incomplete =>
        rw [hexit] at hp
        simp only [List.mem_append] at hp
        rcases hp with hp | hp
        · obtain ⟨ha, hb, hinf⟩ := ipc_parse_frames_go_sound _ _ false hbuf p hp
          refine ⟨ha, hb, carry ++ chunk, ?_, hinf⟩
          simp [ipc_listen_session_buffers, hexit]
        · have hcarry2 : ∀ b ∈ (ipc_parse_frames (carry ++ chunk) false).leftover,
              b < 256 :=
            fun b hb => hbuf b (ipc_parse_frames_go_leftover_sub _ _ false b hb)
          obtain ⟨ha, hb, B, hB, hinf⟩ := ih _ hcarry2 hrest p hp
          refine ⟨ha, hb, B, ?_, hinf⟩
          simp [ipc_listen_session_buffers, hexit, hB]
      | small =>
        rw [hexit] at hp
        simp only [List.mem_append] at hp
        rcases hp with hp | hp
        · obtain ⟨ha, hb, hinf⟩ := ipc_parse_frames_go_sound _ _ false hbuf p hp
          refine ⟨ha, hb, carry ++ chunk, ?_, hinf⟩
          simp [ipc_listen_session_buffers, hexit]
        · obtain ⟨ha, hb, B, hB, hinf⟩ := ih carry hc hrest p hp
          refine ⟨ha, hb, B, ?_, hinf⟩
          simp [ipc_listen_session_buffers, hexit, hB]
      | flushed =>
        rw [hexit] at hp
        obtain ⟨ha, hb, hinf⟩ := ipc_parse_frames_go_sound _ _ false hbuf p hp
        refine ⟨ha, hb, carry ++ chunk, ?_, hinf⟩
        simp [ipc_listen_session_buffers, hexit]
      | eofClosed =>
        rw [hexit] at hp
        obtain ⟨ha, hb, hinf⟩ := ipc_parse_frames_go_sound _ _ false hbuf p hp
        refine ⟨ha, hb, carry ++ chunk, ?_, hinf⟩
        simp [ipc_listen_session_buffers, hexit]
      | outOfFuel =>
        rw [hexit] at hp
        obtain ⟨ha, hb, hinf⟩ := ipc_parse_frames_go_sound _ _ false hbuf p hp
        refine ⟨ha, hb, carry ++ chunk, ?_, hinf⟩
        simp [ipc_listen_session_buffers, hexit]
  · intro chunk rest hchunks hexit
    subst hchunks
    simp [ipc_listen_session, hexit]

/-- A concrete session for the listener witness: one valid frame with payload `[7]`
followed by nine bytes that are not a valid header. The callback sees exactly the one
validated payload; the rest of the session is dropped. -/
def sampleSessionChunk : List Nat :=
  [237, 254, 237, 254, 1, 0, 0, 0, 7, 9, 9, 9, 9, 9, 9, 9, 9, 9]

/-- Witness for `ipc_listen_validated_frames_only` on a concrete session. -/
theorem ipc_listen_validated_frames_only_witness :
    (∀ b ∈ ([] : List Nat), b < 256) ∧
    (∀ ch ∈ [sampleSessionChunk], ∀ b ∈ ch, b < 256) ∧
    (∀ p ∈ ipc_listen_session [] [sampleSessionChunk],
      0 < p.length ∧ p.length ≤ IPC_MAXIMUM_MESSAGE_LENGTH ∧
      ∃ B ∈ ipc_listen_session_buffers [] [sampleSessionChunk],
        frameBytes p <:+: B) :=
  ⟨by decide, by decide,
   (ipc_listen_validated_frames_only [] [sampleSessionChunk] (by decide)
     (by decide)).1⟩

/-- Update of one position of a heap array (`queue->values[i] = x`). -/
def updV (f : Nat → TaggedTask) (i : Nat) (x : TaggedTask) : Nat → TaggedTask :=
  fun j => if j = i then x else f j

/-- Model of `__priority_queue_swap` on the heap array. -/
def updSwap (f : Nat → TaggedTask) (i j : Nat) : Nat → TaggedTask :=
  fun k => if k = i then f j else if k = j then f i else f k

/-- Parent index in the binary heap (`((ssize_t) placement - 1) / 2`; C truncation
towards zero makes index 0 its own parent, as does Nat subtraction here). -/
def pq_parent (placement : Nat) : Nat := (placement - 1) / 2

/-- The multiset of the first `n` entries of a heap array. -/
def msetOf (n : Nat) (v : Nat → TaggedTask) : Multiset TaggedTask :=
  Multiset.map v (Multiset.range n)

/-- The min-heap property of `priority_queue.c`, expressed through a key function
whose order agrees with the comparator on the stored elements. -/
def KHeap (key : TaggedTask → Int) (n : Nat) (v : Nat → TaggedTask) : Prop :=
  ∀ j, 0 < j → j < n → key (v (pq_parent j)) ≤ key (v j)

/-- All stored entries satisfy a predicate (used to restrict comparator facts). -/
def AllP (P : TaggedTask → Prop) (n : Nat) (v : Nat → TaggedTask) : Prop :=
  ∀ i, i < n → P (v i)

/-- A comparator is keyed by `key` on elements satisfying `P`: its sign is the sign of
the key comparison. -/
def KeyCmp (cmp : TaggedTask → TaggedTask → Int) (key : TaggedTask → Int)
    (P : TaggedTask → Prop) : Prop :=
  ∀ a b, P a → P b → ((cmp a b < 0 ↔ key a < key b) ∧ (cmp a b = 0 ↔ key a = key b))

/-- Swapping two in-range positions leaves the stored multiset unchanged. -/
theorem msetOf_updSwap (n : Nat) (v : Nat → TaggedTask) (i j : Nat) (hi : i < n)
    (hj : j < n) : msetOf n (updSwap v i j) = msetOf n v := by
  have hfun : updSwap v i j = fun k => v (Equiv.swap i j k) := by
    funext k
    rw [Equiv.swap_apply_def]
    by_cases h1 : k = i
    · by_cases h2 : j = i <;> simp [updSwap, h1, h2]
    · by_cases h2 : k = j <;> by_cases h3 : j = i <;>
        simp [updSwap, h1, h2, h3]
  rw [msetOf, hfun]
  have hmap : Multiset.map (fun k => v (Equiv.swap i j k)) (Multiset.range n) =
      Multiset.map v (Multiset.map (fun k => Equiv.swap i j k) (Multiset.range n)) := by
    rw [Multiset.map_map]
    rfl
  rw [hmap]
  have hperm : Multiset.map (fun k => Equiv.swap i j k) (Multiset.range n) =
      Multiset.range n := by
    have hnodup : (Multiset.map (fun k => Equiv.swap i j k)
        (Multiset.range n)).Nodup :=
      (Multiset.nodup_range n).map (Equiv.swap i j).injective
    have hsub : Multiset.map (fun k => Equiv.swap i j k) (Multiset.range n) ⊆
        Multiset.range n := by
      intro x hx
      rw [Multiset.mem_map] at hx
      obtain ⟨k, hk, hxk⟩ := hx
      rw [Multiset.mem_range] at hk
      rw [Multiset.mem_range]
      subst hxk
      rw [Equiv.swap_apply_def]
      by_cases h1 : k = i
      · simp [h1, hj]
      · by_cases h2 : k = j <;> by_cases h3 : j = i <;>
          simp [h1, h2, h3, hi, hj, hk]
    have hle := (Multiset.le_iff_subset hnodup).mpr hsub
    have hcard : (Multiset.range n).card ≤ (Multiset.map (fun k => Equiv.swap i j k)
        (Multiset.range n)).card := by
      simp
    exact Multiset.eq_of_le_of_card_le hle hcard
  rw [hperm]
  rfl

/-- Appending one element at position `n` adds it to the stored multiset. -/
theorem msetOf_updV_last (n : Nat) (v : Nat → TaggedTask) (x : TaggedTask) :
    msetOf (n + 1) (updV v n x) = x ::ₘ msetOf n v := by
  rw [msetOf, Multiset.range_succ, Multiset.map_cons]
  have : Multiset.map (updV v n x) (Multiset.range n) = Multiset.map v
      (Multiset.range n) := by
    apply Multiset.map_congr rfl
    intro k hk
    rw [Multiset.mem_range] at hk
    simp [updV, Nat.ne_of_lt hk]
  rw [this]
  simp [updV, msetOf]

/-- Splitting off the last stored position of a heap array. -/
theorem msetOf_succ (n : Nat) (v : Nat → TaggedTask) :
    msetOf (n + 1) v = v n ::ₘ msetOf n v := by
  rw [msetOf, Multiset.range_succ, Multiset.map_cons]
  rfl

/-- In a key-heap the root holds a minimal key. -/
theorem kheap_root_min (key : TaggedTask → Int) (n : Nat) (v : Nat → TaggedTask)
    (hh : KHeap key n v) : ∀ i, i < n → key (v 0) ≤ key (v i) := by
  intro i
  induction i using Nat.strong_induction_on with
  | _ i ih =>
    intro hi
    rcases Nat.eq_zero_or_pos i with h0 | h0
    · subst h0
      exact le_refl _
    · have hp := hh i h0 hi
      have hparent_lt : pq_parent i < i := by
        unfold pq_parent
        omega
      have := ih (pq_parent i) hparent_lt (lt_trans hparent_lt hi)
      exact le_trans this hp

/-- Loop of `__priority_queue_insert_bubble_up` (`server/priority_queue.c`): while the
inserted element compares strictly below its parent, swap it up. The `fuel` only
bounds the loop; the wrapper passes `placement + 1`, which suffices because the index
strictly decreases. -/
def priority_queue_bubble_up_go (cmp : TaggedTask → TaggedTask → Int) :
    Nat → (Nat → TaggedTask) → Nat → (Nat → TaggedTask)
  | 0, v, _ => v
  | fuel + 1, v, placement =>
    if 0 < placement ∧ cmp (v placement) (v (pq_parent placement)) < 0 then
      priority_queue_bubble_up_go cmp fuel (updSwap v placement (pq_parent placement))
        (pq_parent placement)
    else v

/-- Model of `__priority_queue_insert_bubble_up`. -/
def priority_queue_bubble_up (cmp : TaggedTask → TaggedTask → Int)
    (v : Nat → TaggedTask) (placement : Nat) : Nat → TaggedTask :=
  priority_queue_bubble_up_go cmp (placement + 1) v placement

/-- Model of `priority_queue_insert` (`server/priority_queue.c`): places the (cloned)
element at the end of the array and sifts it up. Reallocation and allocation failures
are not modelled. -/
def priority_queue_insert (cmp : TaggedTask → TaggedTask → Int) (q : PriorityQueue)
    (element : TaggedTask) : PriorityQueue :=
  ⟨q.size + 1, priority_queue_bubble_up cmp (updV q.values q.size element) q.size⟩

/-- Heap property everywhere except possibly at one position `p`, with the grandparent
bound on the children of `p` needed for the sift-up induction. -/
def AlmostUp (key : TaggedTask → Int) (n : Nat) (v : Nat → TaggedTask) (p : Nat) :
    Prop :=
  (∀ j, 0 < j → j < n → j ≠ p → key (v (pq_parent j)) ≤ key (v j)) ∧
  (0 < p → ∀ c, c < n → pq_parent c = p → key (v (pq_parent p)) ≤ key (v c))

/-- Correctness of the sift-up loop: from an almost-heap it rebuilds the heap property
while permuting nothing (the stored multiset and the element predicate persist). -/
theorem priority_queue_bubble_up_go_correct {cmp : TaggedTask → TaggedTask → Int}
    {key : TaggedTask → Int} {P : TaggedTask → Prop} (hkc : KeyCmp cmp key P)
    (n : Nat) :
    ∀ (fuel p : Nat) (v : Nat → TaggedTask), p < fuel → p < n → AllP P n v →
      AlmostUp key n v p →
      KHeap key n (priority_queue_bubble_up_go cmp fuel v p) ∧
      msetOf n (priority_queue_bubble_up_go cmp fuel v p) = msetOf n v ∧
      AllP P n (priority_queue_bubble_up_go cmp fuel v p) := by
  intro fuel
  induction fuel with
  | zero =>
    intro p v hf
    omega
  | succ m ih =>
    intro p v hf hp hall halmost
    simp only [priority_queue_bubble_up_go]
    by_cases hcond : 0 < p ∧ cmp (v p) (v (pq_parent p)) < 0
    · rw [if_pos hcond]
      obtain ⟨hp0, hcmp⟩ := hcond
      have hpplt : pq_parent p < p := by
        unfold pq_parent
        omega
      have hppn : pq_parent p < n := lt_trans hpplt hp
      have hkey : key (v p) < key (v (pq_parent p)) :=
        ((hkc (v p) (v (pq_parent p)) (hall p hp) (hall _ hppn)).1).mp hcmp
      have hne : p ≠ pq_parent p := by omega
      have hwp : updSwap v p (pq_parent p) p = v (pq_parent p) := by
        simp [updSwap]
      have hwpp : updSwap v p (pq_parent p) (pq_parent p) = v p := by
        simp [updSwap, Ne.symm hne]
      have hwother : ∀ k, k ≠ p → k ≠ pq_parent p →
          updSwap v p (pq_parent p) k = v k := by
        intro k h1 h2
        simp [updSwap, h1, h2]
      have hall2 : AllP P n (updSwap v p (pq_parent p)) := by
        intro k hk
        by_cases h1 : k = p
        · rw [h1, hwp]
          exact hall _ hppn
        · by_cases h2 : k = pq_parent p
          · rw [h2, hwpp]
            exact hall p hp
          · rw [hwother k h1 h2]
            exact hall k hk
      have halmost2 : AlmostUp key n (updSwap v p (pq_parent p)) (pq_parent p) := by
        constructor
        · intro j hj0 hjn hjne
          by_cases h1 : j = p
          · subst h1
            rw [hwp, show pq_parent j = pq_parent j from rfl, hwpp]
            exact le_of_lt hkey
          · have hwj : updSwap v p (pq_parent p) j = v j := hwother j h1 hjne
            rw [hwj]
            by_cases h2 : pq_parent j = p
            · rw [h2, hwp]
              exact halmost.2 hp0 j hjn h2
            · by_cases h3 : pq_parent j = pq_parent p
              · rw [h3, hwpp]
                have := halmost.1 j hj0 hjn h1
                rw [h3] at this
                exact le_trans (le_of_lt hkey) this
              · rw [hwother _ h2 h3]
                exact halmost.1 j hj0 hjn h1
        · intro hpp0 c hcn hc
          have hgp : pq_parent (pq_parent p) < pq_parent p := by
            have h := hpp0
            unfold pq_parent at h ⊢
            omega
          have hwgp : updSwap v p (pq_parent p) (pq_parent (pq_parent p)) =
              v (pq_parent (pq_parent p)) := by
            apply hwother
            · omega
            · omega
          rw [hwgp]
          have hppfact : key (v (pq_parent (pq_parent p))) ≤ key (v (pq_parent p)) :=
            halmost.1 (pq_parent p) hpp0 hppn (by omega)
          by_cases h1 : c = p
          · rw [h1, hwp]
            exact hppfact
          · have hc0 : 0 < c := by
              rcases Nat.eq_zero_or_pos c with h | h
              · subst h
                have h2 := hpp0
                unfold pq_parent at hc h2
                omega
              · exact h
            have hc2 : c ≠ pq_parent p := by
              intro he
              rw [he] at hc
              have h2 := hpp0
              unfold pq_parent at hc h2
              omega
            rw [hwother c h1 hc2]
            have := halmost.1 c hc0 hcn h1
            rw [hc] at this
            exact le_trans hppfact this
      have hrec := ih (pq_parent p) (updSwap v p (pq_parent p)) (by omega) hppn
        hall2 halmost2
      refine ⟨hrec.1, ?_, hrec.2.2⟩
      rw [hrec.2.1]
      exact msetOf_updSwap n v p (pq_parent p) hp hppn
    · rw [if_neg hcond]
      refine ⟨?_, rfl, hall⟩
      intro j hj0 hjn
      by_cases h1 : j = p
      · subst h1
        rcases Nat.eq_zero_or_pos j with h | hp0
        · omega
        · have hnlt : ¬ cmp (v j) (v (pq_parent j)) < 0 := by
            intro hlt
            exact hcond ⟨hp0, hlt⟩
          have hppn : pq_parent j < n := by
            have : pq_parent j < j := by
              unfold pq_parent
              omega
            omega
          have := (hkc (v j) (v (pq_parent j)) (hall j hjn) (hall _ hppn)).1
          have hge : ¬ key (v j) < key (v (pq_parent j)) := fun hx => hnlt (this.mpr hx)
          omega
      · exact halmost.1 j hj0 hjn h1

/-- Inserting into a valid heap yields a valid heap whose multiset gains the new
element. -/
theorem priority_queue_insert_spec {cmp : TaggedTask → TaggedTask → Int}
    {key : TaggedTask → Int} {P : TaggedTask → Prop} (hkc : KeyCmp cmp key P)
    (q : PriorityQueue) (element : TaggedTask)
    (hheap : KHeap key q.size q.values) (hall : AllP P q.size q.values)
    (hP : P element) :
    (priority_queue_insert cmp q element).size = q.size + 1 ∧
    KHeap key (q.size + 1) (priority_queue_insert cmp q element).values ∧
    msetOf (q.size + 1) (priority_queue_insert cmp q element).values =
      element ::ₘ msetOf q.size q.values ∧
    AllP P (q.size + 1) (priority_queue_insert cmp q element).values := by
  have hall2 : AllP P (q.size + 1) (updV q.values q.size element) := by
    intro k hk
    by_cases h1 : k = q.size
    · simp [updV, h1, hP]
    · rw [show updV q.values q.size element k = q.values k by simp [updV, h1]]
      exact hall k (by omega)
  have halmost : AlmostUp key (q.size + 1) (updV q.values q.size element) q.size := by
    constructor
    · intro j hj0 hjn hjne
      have hjlt : j < q.size := by omega
      have hpj : pq_parent j < q.size := by
        have : pq_parent j < j := by
          unfold pq_parent
          omega
        omega
      rw [show updV q.values q.size element j = q.values j by
          simp [updV, Nat.ne_of_lt hjlt],
        show updV q.values q.size element (pq_parent j) = q.values (pq_parent j) by
          simp [updV, Nat.ne_of_lt hpj]]
      exact hheap j hj0 hjlt
    · intro hs0 c hcn hc
      exfalso
      unfold pq_parent at hc
      omega
  have := priority_queue_bubble_up_go_correct hkc (q.size + 1) (q.size + 1) q.size
    (updV q.values q.size element) (by omega) (by omega) hall2 halmost
  refine ⟨rfl, this.1, ?_, this.2.2⟩
  rw [show (priority_queue_insert cmp q element).values =
      priority_queue_bubble_up_go cmp (q.size + 1) (updV q.values q.size element)
        q.size from rfl]
  rw [this.2.1]
  exact msetOf_updV_last q.size q.values element

/-- Loop of `__priority_queue_remove_bubble_down` (`server/priority_queue.c`): while a
child exists, choose the smaller child and swap down unless the element already
compares strictly below it. The `fuel` only bounds the loop; the wrapper passes
`size + 1`, which suffices because the index strictly increases below `size`. -/
def priority_queue_bubble_down_go (cmp : TaggedTask → TaggedTask → Int) :
    Nat → Nat → (Nat → TaggedTask) → Nat → (Nat → TaggedTask)
  | 0, _, v, _ => v
  | fuel + 1, size, v, removal =>
    if 2 * removal + 1 < size then
      let chosen := if 2 * removal + 2 < size ∧
          cmp (v (2 * removal + 2)) (v (2 * removal + 1)) < 0 then 2 * removal + 2
        else 2 * removal + 1
      if cmp (v removal) (v chosen) < 0 then v
      else priority_queue_bubble_down_go cmp fuel size (updSwap v removal chosen) chosen
    else v

/-- Model of `__priority_queue_remove_bubble_down`. -/
def priority_queue_bubble_down (cmp : TaggedTask → TaggedTask → Int) (size : Nat)
    (v : Nat → TaggedTask) (removal : Nat) : Nat → TaggedTask :=
  priority_queue_bubble_down_go cmp (size + 1) size v removal

/-- Model of `priority_queue_remove_top` (`server/priority_queue.c`): saves the root,
swaps the last element into its place, shrinks the heap and sifts down. -/
def priority_queue_remove_top (cmp : TaggedTask → TaggedTask → Int)
    (q : PriorityQueue) : Option (TaggedTask × PriorityQueue) :=
  if q.size = 0 then none
  else
    some (q.values 0,
      ⟨q.size - 1,
       priority_queue_bubble_down cmp (q.size - 1) (updSwap q.values (q.size - 1) 0) 0⟩)

/-- Heap property everywhere except possibly on the edges from position `i` to its
children, with the grandparent bound needed for the sift-down induction. -/
def AlmostDown (key : TaggedTask → Int) (n : Nat) (v : Nat → TaggedTask) (i : Nat) :
    Prop :=
  (∀ j, 0 < j → j < n → pq_parent j ≠ i → key (v (pq_parent j)) ≤ key (v j)) ∧
  (0 < i → ∀ c, c < n → pq_parent c = i → key (v (pq_parent i)) ≤ key (v c))

/-- The children of position `i` are exactly `2i+1` and `2i+2`. -/
theorem pq_parent_children (i c : Nat) (hc0 : 0 < c) :
    pq_parent c = i ↔ c = 2 * i + 1 ∨ c = 2 * i + 2 := by
  unfold pq_parent
  omega

/-- Correctness of the sift-down loop: from an almost-heap it rebuilds the heap
property while permuting nothing. -/
theorem priority_queue_bubble_down_go_correct {cmp : TaggedTask → TaggedTask → Int}
    {key : TaggedTask → Int} {P : TaggedTask → Prop} (hkc : KeyCmp cmp key P)
    (n : Nat) :
    ∀ (fuel i : Nat) (v : Nat → TaggedTask), n - i ≤ fuel → AllP P n v →
      AlmostDown key n v i →
      KHeap key n (priority_queue_bubble_down_go cmp fuel n v i) ∧
      msetOf n (priority_queue_bubble_down_go cmp fuel n v i) = msetOf n v ∧
      AllP P n (priority_queue_bubble_down_go cmp fuel n v i) := by
  intro fuel
  induction fuel with
  | zero =>
    intro i v hf hall halmost
    have hin : n ≤ i := by omega
    simp only [priority_queue_bubble_down_go]
    refine ⟨?_, by trivial, hall⟩
    intro j hj0 hjn
    apply halmost.1 j hj0 hjn
    intro he
    have : pq_parent j < j := by
      unfold pq_parent
      omega
    omega
  | succ m ih =>
    intro i v hf hall halmost
    simp only [priority_queue_bubble_down_go]
    by_cases hcond : 2 * i + 1 < n
    · rw [if_pos hcond]
      set chosen := if 2 * i + 2 < n ∧ cmp (v (2 * i + 2)) (v (2 * i + 1)) < 0 then
        2 * i + 2 else 2 * i + 1 with hchosen
      have hchosen_lt : chosen < n := by
        rw [hchosen]
        split
        · omega
        · omega
      have hchosen_gt : i < chosen := by
        rw [hchosen]
        split
        · omega
        · omega
      have hchosen_parent : pq_parent chosen = i := by
        rw [hchosen]
        split <;>
          · unfold pq_parent
            omega
      have hchosen_min : ∀ c, c < n → pq_parent c = i → 0 < c →
          key (v chosen) ≤ key (v c) := by
        intro c hcn hcp hc0
        rcases (pq_parent_children i c hc0).mp hcp with hce | hce
        · subst hce
          rw [hchosen]
          split
          · rename_i hx
            exact le_of_lt ((hkc _ _ (hall _ (by omega)) (hall _ (by omega))).1.mp
              hx.2)
          · exact le_refl _
        · subst hce
          rw [hchosen]
          split
          · exact le_refl _
          · rename_i hx
            push_neg at hx
            have h2n : 2 * i + 2 < n := hcn
            have hge := hx h2n
            have hle := (hkc (v (2 * i + 2)) (v (2 * i + 1)) (hall _ (by omega))
              (hall _ (by omega))).1
            have hnk : ¬ key (v (2 * i + 2)) < key (v (2 * i + 1)) := fun hk => by
              have := hle.mpr hk
              omega
            omega
      by_cases hstop : cmp (v i) (v chosen) < 0
      · rw [if_pos hstop]
        refine ⟨?_, rfl, hall⟩
        intro j hj0 hjn
        by_cases hpj : pq_parent j = i
        · have hkey : key (v i) < key (v chosen) :=
            (hkc _ _ (hall _ (by omega)) (hall _ hchosen_lt)).1.mp hstop
          rw [hpj]
          exact le_trans (le_of_lt hkey) (hchosen_min j hjn hpj hj0)
        · exact halmost.1 j hj0 hjn hpj
      · rw [if_neg hstop]
        have hkeyge : key (v chosen) ≤ key (v i) := by
          have := (hkc (v i) (v chosen) (hall _ (by omega)) (hall _ hchosen_lt)).1
          have h2 : ¬ key (v i) < key (v chosen) := fun hk => hstop (this.mpr hk)
          omega
        have hwi : updSwap v i chosen i = v chosen := by
          simp [updSwap]
        have hwc : updSwap v i chosen chosen = v i := by
          simp [updSwap, Nat.ne_of_gt hchosen_gt]
        have hwother : ∀ k, k ≠ i → k ≠ chosen → updSwap v i chosen k = v k := by
          intro k h1 h2
          simp [updSwap, h1, h2]
        have hall2 : AllP P n (updSwap v i chosen) := by
          intro k hk
          by_cases h1 : k = i
          · rw [h1, hwi]
            exact hall _ hchosen_lt
          · by_cases h2 : k = chosen
            · rw [h2, hwc]
              exact hall i (by omega)
            · rw [hwother k h1 h2]
              exact hall k hk
        have halmost2 : AlmostDown key n (updSwap v i chosen) chosen := by
          constructor
          · intro j hj0 hjn hpj
            by_cases h1 : j = i
            · subst h1
              have hpi_ne : pq_parent j ≠ j := by
                have : pq_parent j < j := by
                  unfold pq_parent
                  omega
                omega
              have hpi_nec : pq_parent j ≠ chosen := by
                have : pq_parent j < j := by
                  unfold pq_parent
                  omega
                omega
              rw [hwother _ hpi_ne hpi_nec, hwi]
              exact halmost.2 hj0 chosen hchosen_lt hchosen_parent
            · by_cases h2 : j = chosen
              · subst h2
                rw [hwc, hchosen_parent, hwi]
                exact hkeyge
              · rw [hwother j h1 h2]
                by_cases h3 : pq_parent j = i
                · rw [h3, hwi]
                  exact hchosen_min j hjn h3 hj0
                · rw [hwother _ h3 hpj]
                  exact halmost.1 j hj0 hjn h3
          · intro hch0 c hcn hcp
            rw [hchosen_parent, hwi]
            have hcc : chosen < c := by
              have : pq_parent c < c := by
                have hc0 : 0 < c := by
                  rcases Nat.eq_zero_or_pos c with h | h
                  · subst h
                    unfold pq_parent at hcp
                    omega
                  · exact h
                unfold pq_parent
                omega
              omega
            have hc_ne_i : c ≠ i := by omega
            have hc_ne_ch : c ≠ chosen := by omega
            rw [hwother c hc_ne_i hc_ne_ch]
            have hc0 : 0 < c := by omega
            have := halmost.1 c hc0 hcn (by
              rw [hcp]
              omega)
            rw [hcp] at this
            exact this
        have hrec := ih chosen (updSwap v i chosen) (by omega) hall2 halmost2
        refine ⟨hrec.1, ?_, hrec.2.2⟩
        rw [hrec.2.1]
        exact msetOf_updSwap n v i chosen (by omega) hchosen_lt
    · rw [if_neg hcond]
      refine ⟨?_, rfl, hall⟩
      intro j hj0 hjn
      apply halmost.1 j hj0 hjn
      intro he
      rcases (pq_parent_children i j hj0).mp he with hj | hj <;> omega

/-- Removing the top of a valid nonempty heap returns the key-minimal root; the
remaining heap is valid and stores the original multiset minus the root. -/
theorem priority_queue_remove_top_spec {cmp : TaggedTask → TaggedTask → Int}
    {key : TaggedTask → Int} {P : TaggedTask → Prop} (hkc : KeyCmp cmp key P)
    (q : PriorityQueue) (hsz : 0 < q.size)
    (hheap : KHeap key q.size q.values) (hall : AllP P q.size q.values) :
    ∃ q2, priority_queue_remove_top cmp q = some (q.values 0, q2) ∧
      q2.size = q.size - 1 ∧
      KHeap key q2.size q2.values ∧
      q.values 0 ::ₘ msetOf q2.size q2.values = msetOf q.size q.values ∧
      AllP P q2.size q2.values ∧
      (∀ x ∈ msetOf q.size q.values, key (q.values 0) ≤ key x) := by
  have hv1 : ∀ k, k < q.size - 1 → 0 < k →
      updSwap q.values (q.size - 1) 0 k = q.values k := by
    intro k h1 h2
    simp [updSwap, Nat.ne_of_lt h1, Nat.ne_of_gt h2]
  have hall1 : AllP P (q.size - 1) (updSwap q.values (q.size - 1) 0) := by
    intro k hk
    by_cases h1 : k = q.size - 1
    · omega
    · by_cases h2 : k = 0
      · subst h2
        rw [show updSwap q.values (q.size - 1) 0 0 = if 0 = q.size - 1 then
            q.values 0 else q.values (q.size - 1) from rfl]
        split
        · exact hall 0 hsz
        · exact hall (q.size - 1) (by omega)
      · rw [hv1 k hk (by omega)]
        exact hall k (by omega)
  have halmost1 : AlmostDown key (q.size - 1) (updSwap q.values (q.size - 1) 0) 0 := by
    constructor
    · intro j hj0 hjn hpj
      have hpjlt : pq_parent j < j := by
        unfold pq_parent
        omega
      rw [hv1 j (by omega) hj0, hv1 (pq_parent j) (by omega) (by
        rcases Nat.eq_zero_or_pos (pq_parent j) with h | h
        · exact absurd h hpj
        · exact h)]
      exact hheap j hj0 (by omega)
    · intro h0
      omega
  have hbd := priority_queue_bubble_down_go_correct hkc (q.size - 1) (q.size - 1 + 1)
    0 (updSwap q.values (q.size - 1) 0) (by omega) hall1 halmost1
  have hmset1 : q.values 0 ::ₘ msetOf (q.size - 1) (updSwap q.values (q.size - 1) 0) =
      msetOf q.size q.values := by
    have hswap : msetOf q.size (updSwap q.values (q.size - 1) 0) =
        msetOf q.size q.values :=
      msetOf_updSwap q.size q.values (q.size - 1) 0 (by omega) hsz
    have hsplit := msetOf_succ (q.size - 1) (updSwap q.values (q.size - 1) 0)
    have he : q.size - 1 + 1 = q.size := by omega
    rw [he] at hsplit
    have hlast : updSwap q.values (q.size - 1) 0 (q.size - 1) = q.values 0 := by
      simp [updSwap]
    rw [hlast] at hsplit
    rw [← hswap, hsplit]
  refine ⟨⟨q.size - 1, priority_queue_bubble_down cmp (q.size - 1)
      (updSwap q.values (q.size - 1) 0) 0⟩, ?_, rfl, ?_, ?_, ?_, ?_⟩
  · unfold priority_queue_remove_top
    rw [if_neg (by omega)]
  · exact hbd.1
  · rw [show (priority_queue_bubble_down cmp (q.size - 1)
        (updSwap q.values (q.size - 1) 0) 0) = (priority_queue_bubble_down_go cmp
        (q.size - 1 + 1) (q.size - 1) (updSwap q.values (q.size - 1) 0) 0) from rfl]
    rw [hbd.2.1]
    exact hmset1
  · exact hbd.2.2
  · intro x hx
    rw [msetOf, Multiset.mem_map] at hx
    obtain ⟨k, hk, hxk⟩ := hx
    rw [Multiset.mem_range] at hk
    subst hxk
    exact kheap_root_min key q.size q.values hheap k hk

/-- Loop scanning `scheduler->slots` from `slot_search` for the first available slot
(inner `for` of `scheduler_dispatch_possible` in `server/scheduler.c`); returns
`ntasks` when none is available. The wrapper passes fuel `ntasks + 1`, enough for the
at most `ntasks - slot_search` iterations. -/
def scheduler_find_slot_go (slots : Nat → SchedulerSlot) (ntasks : Nat) :
    Nat → Nat → Nat
  | 0, s => s
  | fuel + 1, s =>
    if s < ntasks then
      match slots s with
      | .available => s
      | .occupied _ _ _ => scheduler_find_slot_go slots ntasks fuel (s + 1)
    else s

/-- The slot scan of `scheduler_dispatch_possible` with sufficient fuel. -/
def scheduler_find_slot (slots : Nat → SchedulerSlot) (ntasks : Nat) (s : Nat) : Nat :=
  scheduler_find_slot_go slots ntasks (ntasks + 1) s

/-- Observable outcome of the dispatch loop: the dispatched tasks in dispatch order (as
they were when popped from the queue), whether the loop aborted (fork failure, or the
unreachable fuel marker), and the final slots and queue. -/
structure DispatchState where
  order : List TaggedTask
  failed : Bool
  slots : Nat → SchedulerSlot
  queue : PriorityQueue

/-- Loop of `scheduler_dispatch_possible` (`server/scheduler.c`): pop the queue top;
scan for a free slot (the scan position persisting across iterations); with no free
slot reinsert the task and stop; otherwise stamp `DISPATCHED`, occupy the slot with the
fork result and a generated secret, and continue. `clocks`, `secrets` and `pids` give
the `clock_gettime`, `__scheduler_generate_secret` and `fork` outcomes of each
iteration (`pids` is the parent-side return: negative models fork failure, on which the
code drops the task and returns -1). The `fuel` only bounds the loop: the wrapper
passes `queue.size + 1`, sufficient because each pop shrinks the queue. -/
def scheduler_dispatch_go (cmp : TaggedTask → TaggedTask → Int)
    (clocks : Nat → Option Timespec) (secrets : Nat → Nat) (pids : Nat → Int) :
    Nat → PriorityQueue → Nat → (Nat → SchedulerSlot) → Nat → Nat → DispatchState
  | 0, q, _, slots, _, _ => ⟨[], true, slots, q⟩
  | fuel + 1, q, ntasks, slots, slot_search, step =>
    match priority_queue_remove_top cmp q with
    | none => ⟨[], false, slots, q⟩
    | some (task, q2) =>
      let s := scheduler_find_slot slots ntasks slot_search
      if s = ntasks then
        ⟨[], false, slots, priority_queue_insert cmp q2 task⟩
      else
        let stamped := scheduler_dispatch_stamp task (clocks step)
        let slots2 := fun k =>
          if k = s then SchedulerSlot.occupied (pids step) (secrets step) stamped
          else slots k
        if pids step < 0 then ⟨[], true, slots2, q2⟩
        else
          let r := scheduler_dispatch_go cmp clocks secrets pids fuel q2 ntasks slots2
            (s + 1) (step + 1)
          ⟨task :: r.order, r.failed, r.slots, r.queue⟩

/-- Model of `scheduler_dispatch_possible` (`server/scheduler.c`): `EINVAL` on a NULL
scheduler, else the loop above; the C return value is -1 on abort and the dispatched
count otherwise. -/
def scheduler_dispatch_possible (cmp : TaggedTask → TaggedTask → Int)
    (clocks : Nat → Option Timespec) (secrets : Nat → Nat) (pids : Nat → Int)
    (scheduler : Option Scheduler) : Except Errno (Int × DispatchState) :=
  match scheduler with
  | none => .error .EINVAL
  | some s =>
    let r := scheduler_dispatch_go cmp clocks secrets pids (s.queue.size + 1) s.queue
      s.ntasks s.slots 0 0
    .ok (if r.failed then -1 else (r.order.length : Int), r)

/-- A successful pop shrinks the queue by exactly one element. -/
theorem priority_queue_remove_top_size {cmp : TaggedTask → TaggedTask → Int}
    {q : PriorityQueue} {t : TaggedTask} {q2 : PriorityQueue}
    (h : priority_queue_remove_top cmp q = some (t, q2)) :
    q2.size = q.size - 1 ∧ q.size ≠ 0 := by
  unfold priority_queue_remove_top at h
  by_cases hsz : q.size = 0
  · rw [if_pos hsz] at h
    exact absurd h (by simp)
  · rw [if_neg hsz] at h
    simp only [Option.some.injEq, Prod.mk.injEq] at h
    refine ⟨?_, hsz⟩
    rw [← h.2]

/-- The dispatch loop does not depend on the fuel once the fuel exceeds the queue
size: the out-of-fuel marker of `scheduler_dispatch_go` is unreachable under the
wrapper's fuel. -/
theorem scheduler_dispatch_go_fuel_irrel (cmp : TaggedTask → TaggedTask → Int)
    (clocks : Nat → Option Timespec) (secrets : Nat → Nat) (pids : Nat → Int) :
    ∀ (f1 f2 : Nat) (q : PriorityQueue) (ntasks : Nat) (slots : Nat → SchedulerSlot)
      (ss step : Nat), q.size < f1 → q.size < f2 →
      scheduler_dispatch_go cmp clocks secrets pids f1 q ntasks slots ss step =
      scheduler_dispatch_go cmp clocks secrets pids f2 q ntasks slots ss step := by
  intro f1
  induction f1 with
  | zero =>
    intro f2 q ntasks slots ss step h1 h2
    exact absurd h1 (by omega)
  | succ m ih =>
    intro f2 q ntasks slots ss step h1 h2
    cases f2 with
    | zero => exact absurd h2 (by omega)
    | succ n =>
      rcases hrt : priority_queue_remove_top cmp q with _ | ⟨t, q2⟩
      · simp only [scheduler_dispatch_go, hrt]
      · obtain ⟨hq2, hq0⟩ := priority_queue_remove_top_size hrt
        simp only [scheduler_dispatch_go, hrt]
        by_cases hslot : scheduler_find_slot slots ntasks ss = ntasks
        · simp [hslot]
        · by_cases hpid : pids step < 0
          · simp [hslot, hpid]
          · simp only [if_neg hslot, if_neg hpid]
            have heq := ih n q2 ntasks
              (fun k => if k = scheduler_find_slot slots ntasks ss then
                SchedulerSlot.occupied (pids step) (secrets step)
                  (scheduler_dispatch_stamp t (clocks step))
                else slots k)
              (scheduler_find_slot slots ntasks ss + 1) (step + 1) (by omega) (by omega)
            rw [heq]

/-- In the dispatch order produced by the loop, an element with a strictly larger key
than some queued task is never reached before that task: pops come out of a valid
key-heap in ascending key order. -/
theorem scheduler_dispatch_go_order {cmp : TaggedTask → TaggedTask → Int}
    {key : TaggedTask → Int} {P : TaggedTask → Prop} (hkc : KeyCmp cmp key P)
    (clocks : Nat → Option Timespec) (secrets : Nat → Nat) (pids : Nat → Int)
    (A B : TaggedTask) (hAB : key A < key B) :
    ∀ (fuel : Nat) (q : PriorityQueue) (ntasks : Nat) (slots : Nat → SchedulerSlot)
      (ss step j : Nat),
      KHeap key q.size q.values → AllP P q.size q.values →
      A ∈ msetOf q.size q.values →
      (scheduler_dispatch_go cmp clocks secrets pids fuel q ntasks slots ss
        step).order.get? j = some B →
      ∃ i, i < j ∧
        (scheduler_dispatch_go cmp clocks secrets pids fuel q ntasks slots ss
          step).order.get? i = some A := by
  intro fuel
  induction fuel with
  | zero =>
    intro q ntasks slots ss step j hheap hall hmem hj
    simp [scheduler_dispatch_go] at hj
  | succ m ih =>
    intro q ntasks slots ss step j hheap hall hmem hj
    by_cases hsz : q.size = 0
    · rw [hsz] at hmem
      simp [msetOf] at hmem
    · obtain ⟨q2, hrt, hq2size, hq2heap, hq2mset, hq2all, hroot⟩ :=
        priority_queue_remove_top_spec hkc q (by omega) hheap hall
      have hrootA : key (q.values 0) ≤ key A := hroot A hmem
      have htB : q.values 0 ≠ B := by
        intro he
        rw [he] at hrootA
        omega
      by_cases hslot : scheduler_find_slot slots ntasks ss = ntasks
      · simp [scheduler_dispatch_go, hrt, hslot] at hj
      · by_cases hpid : pids step < 0
        · simp [scheduler_dispatch_go, hrt, hslot, hpid] at hj
        · simp only [scheduler_dispatch_go, hrt, if_neg hslot, if_neg hpid] at hj ⊢
          by_cases htA : q.values 0 = A
          · refine ⟨0, ?_, ?_⟩
            · rcases Nat.eq_zero_or_pos j with h0 | h0
              · subst h0
                simp [List.get?] at hj
                exact absurd hj htB
              · exact h0
            · simp [List.get?, htA]
          · have hmemA : A ∈ msetOf q2.size q2.values := by
              rw [← hq2mset] at hmem
              rcases Multiset.mem_cons.mp hmem with h | h
              · exact absurd h.symm htA
              · exact h
            cases j with
            | zero =>
              simp [List.get?] at hj
              exact absurd hj htB
            | succ k =>
              have hj2 : (scheduler_dispatch_go cmp clocks secrets pids m q2 ntasks
                  (fun k2 => if k2 = scheduler_find_slot slots ntasks ss then
                    SchedulerSlot.occupied (pids step) (secrets step)
                      (scheduler_dispatch_stamp (q.values 0) (clocks step))
                    else slots k2)
                  (scheduler_find_slot slots ntasks ss + 1) (step + 1)).order.get? k =
                  some B := hj
              obtain ⟨i, hik, hiA⟩ := ih _ _ _ _ _ _ hq2heap hq2all hmemA hj2
              exact ⟨i + 1, by omega, hiA⟩

/-- Key extracted from the `ARRIVED` timestamp: total nanoseconds. When nanosecond
fields are valid, the chronological (lexicographic) order on stamps is exactly the
order of these keys. -/
def arrivedKey (t : TaggedTask) : Int :=
  (t.times TAGGED_TASK_TIME_ARRIVED).tv_sec * 1000000000 +
    (t.times TAGGED_TASK_TIME_ARRIVED).tv_nsec

/-- Tasks for which the FCFS comparator is meaningful: the `ARRIVED` stamp is present
(not all-zero, so `tagged_task_get_time` succeeds) and its nanosecond field is a valid
clock reading. -/
def ValidArrived (t : TaggedTask) : Prop :=
  t.times TAGGED_TASK_TIME_ARRIVED ≠ Timespec.zero ∧
    (t.times TAGGED_TASK_TIME_ARRIVED).validNsec

/-- A 32-bit truncation is the identity on values already in `int` range. -/
theorem toInt32_small (x : Int) (h1 : -2147483648 ≤ x) (h2 : x < 2147483648) :
    toInt32 x = x := by
  unfold toInt32
  omega

/-- On tasks with present, valid `ARRIVED` stamps, the FCFS comparator is keyed by the
arrival instant: the nanosecond difference it returns never overflows `int`. -/
theorem keycmp_fcfs : KeyCmp scheduler_compare_fcfs arrivedKey ValidArrived := by
  intro a b hpa hpb
  obtain ⟨haz, hav⟩ := hpa
  obtain ⟨hbz, hbv⟩ := hpb
  have hga : tagged_task_get_time a TAGGED_TASK_TIME_ARRIVED =
      .ok (a.times TAGGED_TASK_TIME_ARRIVED) := by
    unfold tagged_task_get_time
    rw [if_neg (by decide), if_neg haz]
  have hgb : tagged_task_get_time b TAGGED_TASK_TIME_ARRIVED =
      .ok (b.times TAGGED_TASK_TIME_ARRIVED) := by
    unfold tagged_task_get_time
    rw [if_neg (by decide), if_neg hbz]
  simp only [scheduler_compare_fcfs, hga, hgb]
  unfold Timespec.validNsec at hav hbv
  unfold arrivedKey
  rcases lt_trichotomy (a.times TAGGED_TASK_TIME_ARRIVED).tv_sec
      (b.times TAGGED_TASK_TIME_ARRIVED).tv_sec with h | h | h
  · rw [if_neg (by omega), if_neg (by omega)]
    omega
  · rw [if_neg (by omega), if_pos h,
      toInt32_small _ (by omega) (by omega)]
    omega
  · rw [if_pos (by omega)]
    omega

/-- **C4.** Under the FCFS policy, for every pair of tasks A and B with A's `ARRIVED`
timestamp strictly earlier than B's (both stamps present and valid, as left by
successful clock reads), if both are in the queue when `scheduler_dispatch_possible`
runs — over a queue satisfying the heap invariant that `priority_queue_insert`
maintains — then whenever B appears at some position of the dispatch order, A appears
at a strictly earlier position: A is dispatched before B. -/
theorem scheduler_dispatch_fcfs_order (clocks : Nat → Option Timespec)
    (secrets : Nat → Nat) (pids : Nat → Int) (s : Scheduler) (A B : TaggedTask)
    (out : Int × DispatchState) (j : Nat)
    (hheap : KHeap arrivedKey s.queue.size s.queue.values)
    (hall : AllP ValidArrived s.queue.size s.queue.values)
    (hA : A ∈ msetOf s.queue.size s.queue.values)
    (hB : B ∈ msetOf s.queue.size s.queue.values)
    (harr : (A.times TAGGED_TASK_TIME_ARRIVED).tv_sec <
        (B.times TAGGED_TASK_TIME_ARRIVED).tv_sec ∨
      ((A.times TAGGED_TASK_TIME_ARRIVED).tv_sec =
          (B.times TAGGED_TASK_TIME_ARRIVED).tv_sec ∧
        (A.times TAGGED_TASK_TIME_ARRIVED).tv_nsec <
          (B.times TAGGED_TASK_TIME_ARRIVED).tv_nsec))
    (hout : scheduler_dispatch_possible scheduler_compare_fcfs clocks secrets pids
      (some s) = .ok out)
    (hj : out.2.order.get? j = some B) :
    ∃ i, i < j ∧ out.2.order.get? i = some A := by
  have hPA : ValidArrived A := by
    have hA2 := hA
    rw [msetOf, Multiset.mem_map] at hA2
    obtain ⟨k, hk, hvk⟩ := hA2
    rw [Multiset.mem_range] at hk
    rw [← hvk]
    exact hall k hk
  have hPB : ValidArrived B := by
    have hB2 := hB
    rw [msetOf, Multiset.mem_map] at hB2
    obtain ⟨k, hk, hvk⟩ := hB2
    rw [Multiset.mem_range] at hk
    rw [← hvk]
    exact hall k hk
  have hkey : arrivedKey A < arrivedKey B := by
    obtain ⟨_, hva⟩ := hPA
    obtain ⟨_, hvb⟩ := hPB
    unfold Timespec.validNsec at hva hvb
    unfold arrivedKey
    rcases harr with h | ⟨h1, h2⟩ <;> omega
  simp only [scheduler_dispatch_possible, Except.ok.injEq] at hout
  subst hout
  exact scheduler_dispatch_go_order keycmp_fcfs clocks secrets pids A B hkey
    (s.queue.size + 1) s.queue s.ntasks s.slots 0 0 j hheap hall hA hj

/-- Task arriving at second 1 used by the C4 witness. -/
def wTaskA : TaggedTask :=
  { task := [[[ 'a']]]
    command_line := [ 'a']
    id := 1
    expected_time := 10
    times := fun k => if k = TAGGED_TASK_TIME_ARRIVED then ⟨1, 0⟩ else Timespec.zero }

/-- Task arriving at second 2 used by the C4 witness. -/
def wTaskB : TaggedTask :=
  { task := [[[ 'b']]]
    command_line := [ 'b']
    id := 2
    expected_time := 20
    times := fun k => if k = TAGGED_TASK_TIME_ARRIVED then ⟨2, 0⟩ else Timespec.zero }

/-- Two-slot scheduler whose queue holds the two witness tasks in heap order. -/
def wSched : Scheduler :=
  { queue := ⟨2, fun k => if k = 0 then wTaskA else wTaskB⟩
    ntasks := 2
    slots := fun _ => .available }

/-- Concrete dispatch run of the C4 witness (identity-like oracles). -/
def wOut : Int × DispatchState :=
  (scheduler_dispatch_possible scheduler_compare_fcfs (fun _ => some ⟨3, 0⟩)
      (fun _ => 7) (fun _ => 1) (some wSched)).toOption.getD
    (0, ⟨[], true, wSched.slots, wSched.queue⟩)

/-- Concrete run for the C4 theorem: with tasks arriving at seconds 1 and 2 queued in a
two-slot scheduler, B is dispatched second and the theorem places A strictly before
it. -/
theorem scheduler_dispatch_fcfs_order_witness :
    wOut.2.order.get? 1 = some wTaskB ∧
      ∃ i, i < 1 ∧ wOut.2.order.get? i = some wTaskA :=
  ⟨rfl,
   scheduler_dispatch_fcfs_order (fun _ => some ⟨3, 0⟩) (fun _ => 7) (fun _ => 1)
    wSched wTaskA wTaskB wOut 1
    (by
      intro j h0 h2
      have h2b : j < 2 := h2
      interval_cases j
      decide)
    (by
      intro i hi
      have hib : i < 2 := hi
      interval_cases i <;>
        · unfold ValidArrived
          exact ⟨by decide, by decide⟩)
    (by
      rw [show wSched.queue.size = 1 + 1 from rfl, msetOf_succ,
        show (1 : Nat) = 0 + 1 from rfl, msetOf_succ]
      exact Multiset.mem_cons_of_mem (Multiset.mem_cons_self _ _))
    (by
      rw [show wSched.queue.size = 1 + 1 from rfl, msetOf_succ]
      exact Multiset.mem_cons_self _ _)
    (by decide) rfl rfl⟩

end SO
